import Mathlib

/-!
Verification development for koa-api-builder (src/lib/api-builder.cjs).

The library is a declarative route builder: an `ApiBuilder` keeps a mutable
tree of path elements together with a "current element" cursor; `path`
creates child nodes (optionally running a trailing callback against the
cursor), the HTTP verb methods record `{uri, middlewares}` operations on the
current element, `end` walks the cursor one level up, and `build` destructively
flattens the tree into router registrations.

Modelling choices (all traced to the source):
* A path element (`createPathElement`, lines 245-259) becomes `Node`:
  `uri`, `middlewares`, one operation list per verb (`ops`), `children`,
  `visited`.  The `parentElement` back pointer is represented by a zipper:
  the builder state is the current node plus the stack of its ancestors
  (`CFrame`), each frame holding the ancestor's own data and the elder
  siblings of the chain child (the chain child is always the last entry of
  its parent's `children` array, since `path` pushes it there, line 142).
* Handlers are opaque.  A function value is either a middleware reference
  `Fn.mw id` or a builder callback `Fn.cb body` whose body is the list of
  builder calls the callback performs on its argument.  The source cannot
  distinguish the two: `path` pops the last function argument and invokes it
  (lines 138, 145-149); invoking a middleware reference does not touch the
  builder (koa handlers ignore the builder argument), invoking a callback
  runs its body.
* The verb methods are installed uniformly for every name in the `methods`
  package (lines 75-89).  `Verb` enumerates a representative finite subset;
  the code is uniform in the verb set, and `del` is an alias of `delete`
  (line 91), so `del` calls are encoded as `Verb.delete`.
* A verb called with a function first argument is encoded as
  `Cmd.verb v none fns` (the function is the head of `fns`), mirroring the
  reclassification at lines 80-83; same for `path`, lines 133-136.  A verb
  called with no arguments at all pushes `uri = undefined` in JS, which
  `Array.prototype.join` renders as the empty string in `mountUri`; it is
  modelled as the empty string, which is observationally identical.
* Machine state is pure: every mutation of the source becomes an explicit
  state transformation on the zipper.
-/

/-- HTTP verbs, modelling the list exported by the `methods` package over
which the prototype verb helpers are installed (api-builder.cjs line 75).
The implementation is uniform in the verb set, so a representative finite
enumeration is used. -/
inductive Verb : Type where
  | get | post | put | delete | head | patch | options
deriving DecidableEq, Repr

/-- The verb list iterated by `build` (line 181) and by `createPathElement`
(line 254): the `methods` package array. -/
def methods : List Verb :=
  [Verb.get, Verb.post, Verb.put, Verb.delete, Verb.head, Verb.patch, Verb.options]

theorem mem_methods (v : Verb) : v ∈ methods := by cases v <;> decide

mutual
/-- An opaque function value handed to the builder: either a middleware
reference (never inspected by the core) or a callback whose body is the list
of builder calls it performs on the cursor it receives. -/
inductive Fn : Type where
  | mw (id : Nat) : Fn
  | cb (body : List Cmd) : Fn

/-- One call performed on a builder.  `path none fns` / `verb v none fns`
encode the call shapes whose first argument is a function (or absent), which
the source reclassifies at lines 80-83 and 133-136. -/
inductive Cmd : Type where
  | path (uri : Option String) (fns : List Fn) : Cmd
  | endGroup : Cmd
  | verb (v : Verb) (uri : Option String) (fns : List Fn) : Cmd
end

/-- A `{uri, middlewares}` operation pushed by a verb method (line 86). -/
structure Op : Type where
  uri : String
  middlewares : List Fn

/-- One registration issued to the router: `router[verb](path, ...handlers)`
(line 209). -/
structure Reg : Type where
  verb : Verb
  path : String
  handlers : List Fn

/-- A path element (`createPathElement`, lines 245-259).  The
`parentElement` pointer is represented externally by the zipper stack. -/
inductive Node : Type where
  | mk (uri : String) (middlewares : List Fn) (ops : Verb → List Op)
       (children : List Node) (visited : Bool)

def Node.uri : Node → String
  | .mk u _ _ _ _ => u

def Node.middlewares : Node → List Fn
  | .mk _ m _ _ _ => m

def Node.ops : Node → Verb → List Op
  | .mk _ _ o _ _ => o

def Node.children : Node → List Node
  | .mk _ _ _ c _ => c

def Node.visited : Node → Bool
  | .mk _ _ _ _ v => v

theorem Node.eta (n : Node) :
    Node.mk n.uri n.middlewares n.ops n.children n.visited = n := by
  cases n; rfl

/-- Replace the `middlewares` field (the assignment at line 189). -/
def Node.withMws (m : List Fn) : Node → Node
  | .mk u _ o c v => .mk u m o c v

@[simp] theorem Node.uri_mk (u m o c v) : (Node.mk u m o c v).uri = u := rfl

@[simp] theorem Node.middlewares_mk (u m o c v) : (Node.mk u m o c v).middlewares = m := rfl

@[simp] theorem Node.ops_mk (u m o c v) : (Node.mk u m o c v).ops = o := rfl

@[simp] theorem Node.children_mk (u m o c v) : (Node.mk u m o c v).children = c := rfl

@[simp] theorem Node.visited_mk (u m o c v) : (Node.mk u m o c v).visited = v := rfl

@[simp] theorem Node.uri_withMws (m : List Fn) (n : Node) : (n.withMws m).uri = n.uri := by
  cases n; rfl

@[simp] theorem Node.middlewares_withMws (m : List Fn) (n : Node) :
    (n.withMws m).middlewares = m := by
  cases n; rfl

@[simp] theorem Node.ops_withMws (m : List Fn) (n : Node) : (n.withMws m).ops = n.ops := by
  cases n; rfl

@[simp] theorem Node.children_withMws (m : List Fn) (n : Node) :
    (n.withMws m).children = n.children := by
  cases n; rfl

@[simp] theorem Node.visited_withMws (m : List Fn) (n : Node) :
    (n.withMws m).visited = n.visited := by
  cases n; rfl

/-- Every verb array starts empty (lines 254-256). -/
def emptyOps : Verb → List Op := fun _ => []

/-- `createPathElement(currentElement, uri, middlewares)` (lines 245-259);
the parent link lives in the zipper. -/
def createPathElement (uri : String) (middlewares : List Fn) : Node :=
  .mk uri middlewares emptyOps [] false

/-- Append an operation to one verb array (`this.currentElement[method].push`,
line 86). -/
def pushVerbOp (o : Verb → List Op) (v : Verb) (op : Op) : Verb → List Op :=
  fun w => if w = v then o v ++ [op] else o w

/-- One ancestor level of the cursor.  `siblings` are the elder siblings of
the chain child below this frame; that child is the last element of the
ancestor's real `children` array. -/
structure CFrame : Type where
  uri : String
  middlewares : List Fn
  ops : Verb → List Op
  siblings : List Node

def CFrame.ofNode (n : Node) : CFrame :=
  ⟨n.uri, n.middlewares, n.ops, n.children⟩

/-- Builder state: `this.currentElement` plus its ancestor chain. -/
structure BuilderState : Type where
  cur : Node
  stack : List CFrame

/-- `new ApiBuilder()` (lines 58-63): the root element
`createPathElement(null, '')`. -/
def initState : BuilderState :=
  ⟨createPathElement "" [], []⟩

/-- `ApiBuilder.prototype.end` (lines 160-164): move the cursor to the
parent when one exists, reattaching the current node as the last child. -/
def runEndGroup (s : BuilderState) : BuilderState :=
  match s.stack with
  | [] => s
  | f :: rest => ⟨.mk f.uri f.middlewares f.ops (f.siblings ++ [s.cur]) false, rest⟩

/-- The state right after `path` created the new element and moved the
cursor there (lines 138-144): the popped trailing handler is not part of
`middlewares`. -/
def pathEnter (s : BuilderState) (uri : Option String) (mws : List Fn) : BuilderState :=
  ⟨createPathElement (uri.getD "") mws, CFrame.ofNode s.cur :: s.stack⟩

mutual
/-- One builder call (the prototype methods of api-builder.cjs), on a bound
receiver. -/
def runCmd : Cmd → BuilderState → BuilderState
  | .verb v uri fns, s =>
      -- lines 76-88; `uri instanceof Function` reclassification in the
      -- `none` case (the function is already the head of `fns`)
      ⟨.mk s.cur.uri s.cur.middlewares
          (pushVerbOp s.cur.ops v ⟨uri.getD "", fns⟩) s.cur.children s.cur.visited,
       s.stack⟩
  | .endGroup, s => runEndGroup s
  | .path uri fns, s =>
      -- lines 132-152: pop the trailing handler, create the element,
      -- descend, then invoke the handler (if any) and walk back up
      match h : fns.getLast? with
      | none => pathEnter s uri []
      | some f => runEndGroup (invokeFn f (pathEnter s uri fns.dropLast))
termination_by c _ => sizeOf c
decreasing_by
  have hm : f ∈ fns := by
    rcases @List.mem_getLast?_eq_getLast _ fns f h with ⟨hne, hf⟩
    exact hf ▸ List.getLast_mem hne
  have := List.sizeOf_lt_of_mem hm
  simp_wf
  omega

/-- `handler(this)` at line 147: invoking a middleware reference leaves the
builder untouched; invoking a callback runs its body against the cursor. -/
def invokeFn : Fn → BuilderState → BuilderState
  | .mw _, s => s
  | .cb body, s => runProg body s
termination_by f _ => sizeOf f
decreasing_by simp_wf

/-- A sequence of builder calls. -/
def runProg : List Cmd → BuilderState → BuilderState
  | [], s => s
  | c :: cs, s => runProg cs (runCmd c s)
termination_by l _ => sizeOf l
decreasing_by all_goals simp_wf <;> omega
end

/-- One ancestor level as seen by `build`.  `reattach = true` marks a frame
coming from the construction zipper: there the chain child is still stored in
its parent's `children` array (it was pushed at creation, line 142, and `build`
never removed it), so moving up re-exposes it as the last child.  Frames
pushed by `build` itself have `reattach = false`: descending popped the child
off the array (line 186). -/
structure BFrame : Type where
  uri : String
  middlewares : List Fn
  ops : Verb → List Op
  children : List Node
  visited : Bool
  reattach : Bool

/-- State of the `build` loop (lines 173-195): the local `element` variable
(as current node plus ancestor chain) and the registrations issued so far. -/
structure BState : Type where
  cur : Node
  stack : List BFrame
  regs : List Reg

/-- Concatenation of the strict ancestors' uri fragments, root first (the
`while`/`unshift` walk of `mountUri`, lines 226-230). -/
def ancUri (stack : List BFrame) : String :=
  stack.foldl (fun acc f => f.uri ++ acc) ""

/-- `mountUri(element, op)` (lines 224-234): every ancestor fragment, root
first, then the element's own fragment, then the operation's fragment,
joined with no separator. -/
def mountUri (stack : List BFrame) (e : Node) (op : Op) : String :=
  ancUri stack ++ e.uri ++ op.uri

/-- `drain(verb, router, element)` (lines 205-212): pop every operation of
one verb array, registering it with `element.middlewares` before the
operation's own middlewares.  Popping registers in last-declared-first
order, hence the `reverse`. -/
def drain (v : Verb) (stack : List BFrame) (e : Node) : List Reg :=
  (e.ops v).reverse.map fun op => ⟨v, mountUri stack e op, e.middlewares ++ op.middlewares⟩

/-- `for (const method of methods) drain(method, router, element)`
(lines 181-183). -/
def drainAll (stack : List BFrame) (e : Node) : List Reg :=
  methods.flatMap fun v => drain v stack e

/-- `array.pop()`: the last element together with the remaining array. -/
def popLast (l : List α) : Option (List α × α) :=
  match l.getLast? with
  | none => none
  | some a => some (l.dropLast, a)

theorem popLast_nil : popLast ([] : List α) = none := rfl

theorem popLast_concat (cs : List α) (c : α) : popLast (cs ++ [c]) = some (cs, c) := by
  simp [popLast, List.getLast?_concat, List.dropLast_concat]

/-- The tail of one `build` iteration on a non-null element (lines 181-191):
drain every verb, then either pop the last child — prepending the element's
middlewares to it (line 189) — and descend, or mark the element visited. -/
def processAt (e : Node) (stack : List BFrame) (regs : List Reg) : BState :=
  let regs2 := regs ++ drainAll stack e
  match popLast e.children with
  | some (cs, c) =>
      ⟨c.withMws (e.middlewares ++ c.middlewares),
       ⟨e.uri, e.middlewares, emptyOps, cs, e.visited, false⟩ :: stack, regs2⟩
  | none => ⟨.mk e.uri e.middlewares emptyOps [] true, stack, regs2⟩

/-- One iteration of the `while (element)` loop of `build` (lines 176-192):
a visited element first moves to its parent (halting when there is none,
line 178-179), then the element is drained and a child popped or the element
marked visited.  `none` models the loop exiting. -/
def step (s : BState) : Option BState :=
  if s.cur.visited then
    match s.stack with
    | [] => none
    | f :: rest =>
        some (processAt
          (.mk f.uri f.middlewares f.ops
            (if f.reattach then f.children ++ [s.cur] else f.children) f.visited)
          rest s.regs)
  else some (processAt s.cur s.stack s.regs)

/-- Iterating `step`; `none` means the loop has exited within the given
number of iterations. -/
def stepN : Nat → BState → Option BState
  | 0, s => some s
  | n + 1, s =>
      match step s with
      | none => none
      | some s2 => stepN n s2

mutual
/-- Termination weight of a node stored in a `children` array. -/
def chi : Node → Nat
  | .mk _ _ _ cs vis => 2 + (if vis then 0 else 1) + chiList cs
termination_by n => sizeOf n
decreasing_by simp_wf; omega

def chiList : List Node → Nat
  | [] => 0
  | c :: cs => chi c + chiList cs
termination_by l => sizeOf l
decreasing_by all_goals simp_wf <;> omega
end

/-- Termination weight of the current element. -/
def gam (n : Node) : Nat :=
  1 + (if n.visited then 0 else 1) + chiList n.children

/-- Termination weight of a stack frame. -/
def frameWeight (f : BFrame) : Nat :=
  1 + (if f.reattach then 1 else 0) + (if f.visited then 0 else 1) + chiList f.children

/-- Termination measure for the `build` loop. -/
def mu (s : BState) : Nat :=
  gam s.cur + (s.stack.map frameWeight).sum

theorem chi_eq (n : Node) : chi n = 1 + gam n := by
  cases n with
  | mk u m o cs vis => rw [chi, gam]; simp; omega

theorem gam_ge_one (n : Node) : 1 ≤ gam n := by
  rw [gam]; omega

theorem chiList_append (l1 l2 : List Node) :
    chiList (l1 ++ l2) = chiList l1 + chiList l2 := by
  induction l1 with
  | nil => simp [chiList]
  | cons c cs ih => rw [List.cons_append, chiList, chiList, ih]; omega

theorem gam_withMws (m : List Fn) (n : Node) : gam (n.withMws m) = gam n := by
  rw [gam, gam]; simp

theorem popLast_eq_some {l : List α} {cs : List α} {c : α}
    (h : popLast l = some (cs, c)) : l = cs ++ [c] := by
  unfold popLast at h
  rcases hg : l.getLast? with _ | a
  · rw [hg] at h; cases h
  · rw [hg] at h
    simp only [Option.some.injEq, Prod.mk.injEq] at h
    rw [← h.1, ← h.2]
    exact (List.dropLast_append_getLast? a hg).symm

/-- The measure after the drain/pop/mark part of one iteration. -/
theorem popLast_eq_none {l : List α} (h : popLast l = none) : l = [] := by
  rcases List.eq_nil_or_concat' l with hnil | ⟨cs, c, hcc⟩
  · exact hnil
  · rw [hcc, popLast_concat] at h; cases h

/-- The drain/pop/mark part of an iteration on a childless element. -/
theorem mu_processAt_nil {e : Node} (stack : List BFrame) (regs : List Reg)
    (he : e.children = []) :
    mu (processAt e stack regs) = 1 + (stack.map frameWeight).sum := by
  unfold processAt
  rw [he, popLast_nil]
  rw [mu]
  simp [gam, chiList]

/-- The drain/pop/mark part of an iteration on an element with children. -/
theorem mu_processAt_concat {e : Node} {cs : List Node} {c : Node}
    (stack : List BFrame) (regs : List Reg) (he : e.children = cs ++ [c]) :
    mu (processAt e stack regs) =
      gam c + (1 + (if e.visited then 0 else 1) + chiList cs) +
        (stack.map frameWeight).sum := by
  unfold processAt
  rw [he, popLast_concat]
  rw [mu]
  simp only [List.map_cons, List.sum_cons, frameWeight, gam_withMws]
  simp
  omega

/-- Every loop iteration strictly decreases the measure. -/
theorem mu_decreases {s s2 : BState} (h : step s = some s2) : mu s2 < mu s := by
  unfold step at h
  by_cases hv : s.cur.visited
  · simp only [hv, if_true] at h
    rcases hst : s.stack with _ | ⟨f, rest⟩
    · rw [hst] at h; cases h
    · rw [hst] at h
      simp only [Option.some.injEq] at h
      subst h
      have hmu : mu s = gam s.cur + frameWeight f + (rest.map frameWeight).sum := by
        rw [mu, hst]; simp; omega
      rw [hmu, frameWeight]
      have hg1 := gam_ge_one s.cur
      by_cases hr : f.reattach
      · have hp := @mu_processAt_concat (.mk f.uri f.middlewares f.ops
            (if f.reattach then f.children ++ [s.cur] else f.children) f.visited)
            f.children s.cur rest s.regs (by rw [hr]; simp)
        simp only [Node.visited_mk] at hp
        rw [hp, hr]
        simp
      · rcases List.eq_nil_or_concat' f.children with hnil | ⟨cs, c, hcc⟩
        · have hp := @mu_processAt_nil (.mk f.uri f.middlewares f.ops
              (if f.reattach then f.children ++ [s.cur] else f.children) f.visited)
              rest s.regs (by simp [hr, hnil])
          rw [hp]
          simp only [hr, if_false, Bool.false_eq_true]
          omega
        · have hp := @mu_processAt_concat (.mk f.uri f.middlewares f.ops
              (if f.reattach then f.children ++ [s.cur] else f.children) f.visited)
              cs c rest s.regs (by simp [hr, hcc])
          simp only [Node.visited_mk] at hp
          rw [hp]
          have := chi_eq c
          simp only [hr, if_false, Bool.false_eq_true, hcc, chiList_append, chiList]
          omega
  · simp only [hv, Bool.false_eq_true, if_false, Option.some.injEq] at h
    subst h
    have hmu : mu s = 2 + chiList s.cur.children + (s.stack.map frameWeight).sum := by
      rw [mu, gam]; simp [hv]
    rw [hmu]
    rcases List.eq_nil_or_concat' s.cur.children with hnil | ⟨cs, c, hcc⟩
    · rw [mu_processAt_nil s.stack s.regs hnil, hnil]
      simp [chiList]
    · rw [mu_processAt_concat s.stack s.regs hcc, hcc]
      have := chi_eq c
      simp [chiList_append, chiList, hv]
      omega

def loop (s : BState) : List Reg :=
  match h : step s with
  | none => s.regs
  | some s2 => loop s2
termination_by mu s
decreasing_by exact mu_decreases h

theorem loop_none {s : BState} (h : step s = none) : loop s = s.regs := by
  rw [loop, h]

theorem loop_some {s s2 : BState} (h : step s = some s2) : loop s = loop s2 := by
  rw [loop, h]

/-- `build()` entry (lines 173-175): the loop starts at `this.currentElement`,
whose real tree still holds every chain child attached as the last child of
its parent, hence `reattach = true` on every initial frame; the router starts
as the supplied one or a fresh empty one. -/
def initFrames (st : List CFrame) : List BFrame :=
  st.map fun f => ⟨f.uri, f.middlewares, f.ops, f.siblings, false, true⟩

def buildInit (s : BuilderState) (regs0 : List Reg) : BState :=
  ⟨s.cur, initFrames s.stack, regs0⟩

/-- `ApiBuilder.prototype.build` (lines 173-195): `router = this.router || new
Router()`, then the flattening loop; returns the router's final contents. -/
def build (router : Option (List Reg)) (s : BuilderState) : List Reg :=
  loop (buildInit s (router.getD []))

/-- The registrations `build` issues on a builder with no supplied router. -/
def buildRegs (s : BuilderState) : List Reg :=
  build none s

/-- `drainAll` with the ancestor prefix abstracted to a string. -/
def drainSpec (anc : String) (e : Node) : List Reg :=
  methods.flatMap fun v =>
    (e.ops v).reverse.map fun op => ⟨v, anc ++ e.uri ++ op.uri, e.middlewares ++ op.middlewares⟩

theorem drainAll_eq_drainSpec (stack : List BFrame) (e : Node) :
    drainAll stack e = drainSpec (ancUri stack) e := rfl

mutual
/-- Number of nodes in a subtree (independent of middleware contents). -/
def nsize : Node → Nat
  | .mk _ _ _ cs _ => 1 + nsizeList cs
termination_by n => sizeOf n
decreasing_by simp_wf; omega

def nsizeList : List Node → Nat
  | [] => 0
  | c :: cs => nsize c + nsizeList cs
termination_by l => sizeOf l
decreasing_by all_goals simp_wf <;> omega
end

theorem nsize_withMws (m : List Fn) (n : Node) : nsize (n.withMws m) = nsize n := by
  cases n with
  | mk u m2 o cs v => rw [Node.withMws, nsize, nsize]

theorem nsize_pos (n : Node) : 1 ≤ nsize n := by
  cases n with
  | mk u m o cs v => rw [nsize]; omega

theorem nsizeList_append (l1 l2 : List Node) :
    nsizeList (l1 ++ l2) = nsizeList l1 + nsizeList l2 := by
  induction l1 with
  | nil => simp [nsizeList]
  | cons c cs ih => rw [List.cons_append, nsizeList, nsizeList, ih]; omega

theorem nsizeList_reverse (l : List Node) : nsizeList l.reverse = nsizeList l := by
  induction l with
  | nil => rfl
  | cons c cs ih =>
      rw [List.reverse_cons, nsizeList_append, nsizeList, nsizeList, nsizeList, ih]
      omega

theorem nsize_children (n : Node) : nsizeList n.children < nsize n := by
  cases n with
  | mk u m o cs v => rw [nsize]; simp

/-- The three interpreter entry points packed into one function that is
structurally recursive on a fuel bound, so that concrete runs reduce by pure
kernel computation. -/
def runN : Nat → Cmd ⊕ (Fn ⊕ List Cmd) → BuilderState → BuilderState
  | 0, _, s => s
  | n + 1, .inl c, s =>
      match c with
      | .verb v uri fns =>
          ⟨.mk s.cur.uri s.cur.middlewares
              (pushVerbOp s.cur.ops v ⟨uri.getD "", fns⟩) s.cur.children s.cur.visited,
           s.stack⟩
      | .endGroup => runEndGroup s
      | .path uri fns =>
          match fns.getLast? with
          | none => pathEnter s uri []
          | some f => runEndGroup (runN n (.inr (.inl f)) (pathEnter s uri fns.dropLast))
  | n + 1, .inr (.inl f), s =>
      match f with
      | .mw _ => s
      | .cb body => runN n (.inr (.inr body)) s
  | n + 1, .inr (.inr l), s =>
      match l with
      | [] => s
      | c :: cs => runN n (.inr (.inr cs)) (runN n (.inl c) s)

mutual
/-- The registrations the `build` loop emits while it consumes the subtree of
an element it has just become current on (drain every verb at the element,
then repeatedly pop the last child, prepend the element's middlewares to it,
and recurse).  `anc` is the uri prefix contributed by the element's real
ancestors. -/
def flattenNode (anc : String) (n : Node) : List Reg :=
  drainSpec anc n ++ flattenChildren (anc ++ n.uri) n.middlewares n.children.reverse
termination_by (nsize n, 0)
decreasing_by
  simp_wf
  left
  rw [nsizeList_reverse]
  exact nsize_children n

/-- Flattening a list of children, already in pop (last-declared-first)
order, each receiving the parent's middleware chain. -/
def flattenChildren (anc : String) (inh : List Fn) : List Node → List Reg
  | [] => []
  | c :: cs =>
      flattenNode anc (c.withMws (inh ++ c.middlewares)) ++ flattenChildren anc inh cs
termination_by l => (nsizeList l, 1)
decreasing_by
  · simp_wf
    rw [nsize_withMws]
    rcases Nat.lt_or_ge (nsize c) (nsize c + nsizeList cs) with hlt | hge
    · exact Prod.Lex.left _ _ (by rw [nsizeList]; omega)
    · have : nsizeList cs = 0 := by omega
      rw [nsizeList, this]
      exact Prod.Lex.right _ (by omega)
  · simp_wf
    have := nsize_pos c
    exact Prod.Lex.left _ _ (by rw [nsizeList]; omega)
end

/-- The registrations the loop emits after the initial element's subtree is
exhausted: walking up through the (construction) ancestor frames, draining
each ancestor's own operations and then its remaining children. -/
def sweepF : List BFrame → List Reg
  | [] => []
  | f :: rest =>
      drainSpec (ancUri rest) (.mk f.uri f.middlewares f.ops [] false) ++
        flattenChildren (ancUri rest ++ f.uri) f.middlewares f.children.reverse ++
          sweepF rest

theorem flattenNode_def (anc : String) (n : Node) :
    flattenNode anc n =
      drainSpec anc n ++ flattenChildren (anc ++ n.uri) n.middlewares n.children.reverse := by
  rw [flattenNode]

theorem flattenChildren_nil (anc : String) (inh : List Fn) :
    flattenChildren anc inh [] = [] := by
  rw [flattenChildren]

theorem flattenChildren_cons (anc : String) (inh : List Fn) (c : Node) (cs : List Node) :
    flattenChildren anc inh (c :: cs) =
      flattenNode anc (c.withMws (inh ++ c.middlewares)) ++ flattenChildren anc inh cs := by
  rw [flattenChildren]

theorem sweepF_nil : sweepF [] = [] := by rw [sweepF]

theorem sweepF_cons (f : BFrame) (rest : List BFrame) :
    sweepF (f :: rest) =
      drainSpec (ancUri rest) (.mk f.uri f.middlewares f.ops [] false) ++
        flattenChildren (ancUri rest ++ f.uri) f.middlewares f.children.reverse ++
          sweepF rest := by
  rw [sweepF]

theorem drainSpec_emptyOps (anc : String) (u : String) (m : List Fn) (cs : List Node)
    (v : Bool) : drainSpec anc (.mk u m emptyOps cs v) = [] := by
  simp [drainSpec, emptyOps]

theorem ancUri_shift (stack : List BFrame) (acc : String) :
    stack.foldl (fun acc f => f.uri ++ acc) acc = ancUri stack ++ acc := by
  induction stack generalizing acc with
  | nil => simp [ancUri, String.empty_append]
  | cons f rest ih =>
      rw [ancUri, List.foldl_cons, List.foldl_cons, ih, ih (f.uri ++ "")]
      rw [String.append_empty, String.append_assoc]

theorem ancUri_cons (f : BFrame) (stack : List BFrame) :
    ancUri (f :: stack) = ancUri stack ++ f.uri := by
  rw [ancUri, List.foldl_cons, ancUri_shift, String.append_empty]

/-- A fully drained element: everything `build` leaves behind once a subtree
is consumed. -/
def drainedNode (u : String) (m : List Fn) : Node :=
  .mk u m emptyOps [] true

theorem step_unvisited (u : String) (m : List Fn) (o : Verb → List Op)
    (cs : List Node) (stack : List BFrame) (regs : List Reg) :
    step ⟨.mk u m o cs false, stack, regs⟩ =
      some (processAt (.mk u m o cs false) stack regs) := by
  unfold step
  simp

theorem step_visited_nil {X : Node} (hX : X.visited = true) (regs : List Reg) :
    step ⟨X, [], regs⟩ = none := by
  unfold step
  simp [hX]

theorem step_visited_cons {X : Node} (hX : X.visited = true) (f : BFrame)
    (rest : List BFrame) (regs : List Reg) :
    step ⟨X, f :: rest, regs⟩ =
      some (processAt
        (.mk f.uri f.middlewares f.ops
          (if f.reattach then f.children ++ [X] else f.children) f.visited)
        rest regs) := by
  unfold step
  simp [hX]

theorem processAt_nil {e : Node} (stack : List BFrame) (regs : List Reg)
    (he : e.children = []) :
    processAt e stack regs =
      ⟨.mk e.uri e.middlewares emptyOps [] true, stack,
        regs ++ drainSpec (ancUri stack) e⟩ := by
  unfold processAt
  rw [he, popLast_nil, drainAll_eq_drainSpec]

theorem processAt_concat {e : Node} {cs : List Node} {c : Node}
    (stack : List BFrame) (regs : List Reg) (he : e.children = cs ++ [c]) :
    processAt e stack regs =
      ⟨c.withMws (e.middlewares ++ c.middlewares),
        ⟨e.uri, e.middlewares, emptyOps, cs, e.visited, false⟩ :: stack,
        regs ++ drainSpec (ancUri stack) e⟩ := by
  unfold processAt
  rw [he, popLast_concat, drainAll_eq_drainSpec]

mutual
/-- No node of the subtree has been visited (true of every tree the
construction phase can produce). -/
def allUnvN : Node → Bool
  | .mk _ _ _ cs v => !v && allUnvL cs
termination_by n => sizeOf n
decreasing_by simp_wf; omega

def allUnvL : List Node → Bool
  | [] => true
  | c :: cs => allUnvN c && allUnvL cs
termination_by l => sizeOf l
decreasing_by all_goals simp_wf <;> omega
end

theorem allUnvN_mk {u : String} {m : List Fn} {o : Verb → List Op} {cs : List Node}
    {v : Bool} (h : allUnvN (.mk u m o cs v) = true) :
    v = false ∧ allUnvL cs = true := by
  rw [allUnvN] at h
  simp at h
  exact h

theorem allUnvL_append {l1 l2 : List Node} (h : allUnvL (l1 ++ l2) = true) :
    allUnvL l1 = true ∧ allUnvL l2 = true := by
  induction l1 with
  | nil => exact ⟨by rw [allUnvL], h⟩
  | cons c cs ih =>
      rw [List.cons_append, allUnvL] at h
      simp at h
      rcases h with ⟨h1, h2⟩
      rcases ih h2 with ⟨h3, h4⟩
      rw [allUnvL]
      simp [h1, h3, h4]

theorem allUnvN_withMws (m : List Fn) (n : Node) :
    allUnvN (n.withMws m) = allUnvN n := by
  cases n with
  | mk u m2 o cs v => rw [Node.withMws, allUnvN, allUnvN]

theorem allUnvN_visited {n : Node} (h : allUnvN n = true) : n.visited = false := by
  cases n with
  | mk u m o cs v => exact (allUnvN_mk h).1

theorem allUnvN_children {n : Node} (h : allUnvN n = true) : allUnvL n.children = true := by
  cases n with
  | mk u m o cs v => exact (allUnvN_mk h).2

/-- Joint induction: (1) arriving at an unvisited element, the loop consumes
its whole subtree, emitting `flattenNode`, and ends up on the drained
element; (2) sitting (drained) on top of a frame with remaining children,
the loop consumes the children in pop order, emitting `flattenChildren`, and
ends up on the drained parent. -/
theorem loop_subtree_aux : ∀ k : Nat,
    (∀ n : Node, 2 * nsize n ≤ k → allUnvN n = true →
      ∀ (stack : List BFrame) (regs : List Reg),
        loop ⟨n, stack, regs⟩ =
          loop ⟨drainedNode n.uri n.middlewares, stack,
            regs ++ flattenNode (ancUri stack) n⟩) ∧
    (∀ cs : List Node, 2 * nsizeList cs + 1 ≤ k → allUnvL cs = true →
      ∀ (X : Node), X.visited = true →
      ∀ (u : String) (m : List Fn) (stack : List BFrame) (regs : List Reg),
        loop ⟨X, ⟨u, m, emptyOps, cs, false, false⟩ :: stack, regs⟩ =
          loop ⟨drainedNode u m, stack,
            regs ++ flattenChildren (ancUri stack ++ u) m cs.reverse⟩) := by
  intro k
  induction k using Nat.strong_induction_on with
  | _ k IH =>
  constructor
  · intro n hk hunv stack regs
    cases n with
    | mk u m o cs v =>
      rcases allUnvN_mk hunv with ⟨hv, hcs⟩
      subst hv
      rw [loop_some (step_unvisited u m o cs stack regs)]
      have hsz : nsize (Node.mk u m o cs false) = 1 + nsizeList cs := by rw [nsize]
      rcases List.eq_nil_or_concat' cs with hnil | ⟨ds, d, hdd⟩
      · subst hnil
        rw [processAt_nil stack regs (by simp)]
        rw [flattenNode_def]
        simp only [Node.children_mk, List.reverse_nil, flattenChildren_nil,
          List.append_nil, Node.uri_mk, Node.middlewares_mk, drainedNode]
      · subst hdd
        rw [@processAt_concat _ ds d stack regs (by simp)]
        simp only [Node.uri_mk, Node.middlewares_mk, Node.visited_mk]
        rcases allUnvL_append hcs with ⟨hds, hd1⟩
        rw [allUnvL] at hd1
        simp only [Bool.and_eq_true] at hd1
        have hund : allUnvN (d.withMws (m ++ d.middlewares)) = true := by
          rw [allUnvN_withMws]; exact hd1.1
        have hszd : 2 * nsize (d.withMws (m ++ d.middlewares)) < k := by
          rw [nsize_withMws]
          rw [nsizeList_append, nsizeList, nsizeList] at hsz
          omega
        rw [(IH _ hszd).1 (d.withMws (m ++ d.middlewares)) le_rfl hund
          (⟨u, m, emptyOps, ds, false, false⟩ :: stack) _]
        simp only [Node.uri_withMws, Node.middlewares_withMws]
        have hszds : 2 * nsizeList ds + 1 < k := by
          rw [nsizeList_append, nsizeList, nsizeList] at hsz
          have := nsize_pos d
          omega
        rw [(IH _ hszds).2 ds le_rfl hds (drainedNode d.uri (m ++ d.middlewares))
          (by rw [drainedNode]; simp) u m stack _]
        rw [ancUri_cons]
        rw [flattenNode_def (ancUri stack) (Node.mk u m o (ds ++ [d]) false)]
        simp only [Node.children_mk, Node.uri_mk, Node.middlewares_mk,
          List.reverse_append, List.reverse_cons, List.reverse_nil, List.nil_append,
          List.cons_append, List.singleton_append]
        rw [flattenChildren_cons]
        simp [List.append_assoc]
  · intro cs hk hcs X hX u m stack regs
    rcases List.eq_nil_or_concat' cs with hnil | ⟨ds, d, hdd⟩
    · subst hnil
      rw [loop_some (step_visited_cons hX ⟨u, m, emptyOps, [], false, false⟩ stack regs)]
      simp only
      rw [processAt_nil stack regs (by simp)]
      simp only [Node.uri_mk, Node.middlewares_mk]
      rw [drainSpec_emptyOps]
      simp only [List.reverse_nil, flattenChildren_nil, List.append_nil, drainedNode]
    · subst hdd
      rw [loop_some (step_visited_cons hX ⟨u, m, emptyOps, ds ++ [d], false, false⟩
        stack regs)]
      simp only
      rw [@processAt_concat _ ds d stack regs (by simp)]
      simp only [Node.uri_mk, Node.middlewares_mk, Node.visited_mk]
      rw [drainSpec_emptyOps]
      rcases allUnvL_append hcs with ⟨hds, hd1⟩
      rw [allUnvL] at hd1
      simp only [Bool.and_eq_true] at hd1
      have hund : allUnvN (d.withMws (m ++ d.middlewares)) = true := by
        rw [allUnvN_withMws]; exact hd1.1
      have hszd : 2 * nsize (d.withMws (m ++ d.middlewares)) < k := by
        rw [nsize_withMws]
        rw [nsizeList_append, nsizeList, nsizeList] at hk
        omega
      rw [(IH _ hszd).1 (d.withMws (m ++ d.middlewares)) le_rfl hund
        (⟨u, m, emptyOps, ds, false, false⟩ :: stack) _]
      simp only [Node.uri_withMws, Node.middlewares_withMws]
      have hszds : 2 * nsizeList ds + 1 < k := by
        rw [nsizeList_append, nsizeList, nsizeList] at hk
        have := nsize_pos d
        omega
      rw [(IH _ hszds).2 ds le_rfl hds (drainedNode d.uri (m ++ d.middlewares))
        (by rw [drainedNode]; simp) u m stack _]
      rw [ancUri_cons]
      simp only [List.reverse_append, List.reverse_cons, List.reverse_nil,
        List.nil_append, List.cons_append, List.singleton_append]
      rw [flattenChildren_cons]
      simp [List.append_assoc]

/-- Lemma (1) of the joint induction packaged: the loop consumes the current
unvisited subtree and parks on the drained element. -/
theorem loop_subtree {n : Node} (hunv : allUnvN n = true) (stack : List BFrame)
    (regs : List Reg) :
    loop ⟨n, stack, regs⟩ =
      loop ⟨drainedNode n.uri n.middlewares, stack,
        regs ++ flattenNode (ancUri stack) n⟩ :=
  (loop_subtree_aux (2 * nsize n)).1 n le_rfl hunv stack regs

theorem drainSpec_mk_congr (anc u : String) (m : List Fn) (o : Verb → List Op)
    (cs cs2 : List Node) (v v2 : Bool) :
    drainSpec anc (.mk u m o cs v) = drainSpec anc (.mk u m o cs2 v2) := rfl

/-- A frame as `build` initially sees it: it comes from the construction
zipper (chain child still attached), its node is unvisited and so is every
remaining child subtree. -/
def goodFrame (f : BFrame) : Bool :=
  f.reattach && !f.visited && allUnvL f.children

/-- Lemma (2) packaged for whole stacks: once the current element is fully
drained, the loop walks back up the initial frames, draining each ancestor
and its remaining children, and halts. -/
theorem loop_sweep : ∀ (stack : List BFrame), stack.all goodFrame = true →
    ∀ {X : Node}, X.visited = true → ∀ (regs : List Reg),
      loop ⟨X, stack, regs⟩ = regs ++ sweepF stack := by
  intro stack
  induction stack with
  | nil =>
      intro _ X hX regs
      rw [loop_none (step_visited_nil hX regs), sweepF_nil, List.append_nil]
  | cons f rest ih =>
      intro hall X hX regs
      rw [List.all_cons, Bool.and_eq_true] at hall
      rcases hall with ⟨hf, hrest⟩
      rw [goodFrame] at hf
      simp only [Bool.and_eq_true, Bool.not_eq_true'] at hf
      rcases hf with ⟨⟨hre, hvi⟩, hch⟩
      rw [loop_some (step_visited_cons hX f rest regs)]
      rw [hre, hvi]
      simp only [if_true]
      rw [@processAt_concat _ f.children X rest regs (by simp)]
      simp only [Node.uri_mk, Node.middlewares_mk, Node.visited_mk]
      rw [(loop_subtree_aux (2 * nsizeList f.children + 1)).2 f.children le_rfl hch
        (X.withMws (f.middlewares ++ X.middlewares)) (by simp [hX]) f.uri f.middlewares
        rest _]
      rw [ih hrest (by rw [drainedNode]; simp) _]
      rw [sweepF_cons]
      rw [drainSpec_mk_congr (ancUri rest) f.uri f.middlewares f.ops
        (f.children ++ [X]) [] false false]
      simp [List.append_assoc]

/-- Builder states whose whole tree is unvisited — the invariant the
construction phase maintains (nodes are created unvisited and only `build`
sets `visited`). -/
def WFb (s : BuilderState) : Bool :=
  allUnvN s.cur && s.stack.all fun f => allUnvL f.siblings

theorem initFrames_good {st : List CFrame}
    (h : (st.all fun f => allUnvL f.siblings) = true) :
    (initFrames st).all goodFrame = true := by
  induction st with
  | nil => rfl
  | cons f rest ih =>
      rw [List.all_cons, Bool.and_eq_true] at h
      rw [initFrames, List.map_cons, List.all_cons, Bool.and_eq_true]
      exact ⟨by rw [goodFrame]; simp [h.1], ih h.2⟩

/-- Master characterisation of `build`: starting anywhere in a construction
tree, the router receives exactly the flattening of the current element's
subtree followed by the upward sweep over the ancestor frames. -/
theorem build_master {s : BuilderState} (h : WFb s = true)
    (router : Option (List Reg)) :
    build router s =
      router.getD [] ++
        (flattenNode (ancUri (initFrames s.stack)) s.cur ++ sweepF (initFrames s.stack)) := by
  rw [WFb, Bool.and_eq_true] at h
  rw [build, buildInit]
  rw [loop_subtree h.1 _ _]
  rw [loop_sweep _ (initFrames_good h.2) (by rw [drainedNode]; simp) _]
  simp [List.append_assoc]

theorem runProg_nil (s : BuilderState) : runProg [] s = s := by rw [runProg]

theorem runProg_cons (c : Cmd) (cs : List Cmd) (s : BuilderState) :
    runProg (c :: cs) s = runProg cs (runCmd c s) := by rw [runProg]

theorem invokeFn_mw (i : Nat) (s : BuilderState) : invokeFn (.mw i) s = s := by
  rw [invokeFn]

theorem invokeFn_cb (b : List Cmd) (s : BuilderState) :
    invokeFn (.cb b) s = runProg b s := by rw [invokeFn]

theorem runCmd_endGroup (s : BuilderState) : runCmd .endGroup s = runEndGroup s := by
  rw [runCmd]

theorem runCmd_verb (v : Verb) (uri : Option String) (fns : List Fn) (s : BuilderState) :
    runCmd (.verb v uri fns) s =
      ⟨.mk s.cur.uri s.cur.middlewares
          (pushVerbOp s.cur.ops v ⟨uri.getD "", fns⟩) s.cur.children s.cur.visited,
       s.stack⟩ := by
  rw [runCmd]

theorem runCmd_path_nofn (uri : Option String) (s : BuilderState) :
    runCmd (.path uri []) s = pathEnter s uri [] := by
  rw [runCmd]
  rfl

theorem runCmd_path_concat (uri : Option String) (fns : List Fn) (f : Fn)
    (s : BuilderState) :
    runCmd (.path uri (fns ++ [f])) s =
      runEndGroup (invokeFn f (pathEnter s uri fns)) := by
  rw [runCmd]
  split
  · rename_i h
    rw [List.getLast?_concat] at h
    cases h
  · rename_i f2 h
    rw [List.getLast?_concat] at h
    cases h
    rw [List.dropLast_concat]

theorem allUnvL_append_eq (l1 l2 : List Node) :
    allUnvL (l1 ++ l2) = (allUnvL l1 && allUnvL l2) := by
  induction l1 with
  | nil => rw [List.nil_append, allUnvL, Bool.true_and]
  | cons c cs ih => rw [List.cons_append, allUnvL, allUnvL, ih, Bool.and_assoc]

theorem allUnvN_set_ops (n : Node) (o2 : Verb → List Op) :
    allUnvN (.mk n.uri n.middlewares o2 n.children n.visited) = allUnvN n := by
  cases n with
  | mk u m o cs v =>
      rw [allUnvN, allUnvN]
      simp

theorem WFb_runEndGroup {s : BuilderState} (h : WFb s = true) :
    WFb (runEndGroup s) = true := by
  obtain ⟨cur, stack⟩ := s
  rcases stack with _ | ⟨f, rest⟩
  · exact h
  · rw [WFb, Bool.and_eq_true] at h
    simp only [List.all_cons, Bool.and_eq_true] at h
    rw [WFb, runEndGroup, Bool.and_eq_true]
    simp only
    constructor
    · rw [allUnvN]
      rw [allUnvL_append_eq, allUnvL, allUnvL]
      simp [h.1, h.2.1]
    · exact h.2.2

theorem WFb_pathEnter {s : BuilderState} (h : WFb s = true) (uri : Option String)
    (mws : List Fn) : WFb (pathEnter s uri mws) = true := by
  rw [WFb, Bool.and_eq_true] at h
  rw [WFb, pathEnter, Bool.and_eq_true]
  constructor
  · rw [createPathElement, allUnvN, allUnvL]
    rfl
  · rw [List.all_cons, Bool.and_eq_true]
    exact ⟨allUnvN_children h.1, h.2⟩

/-- The construction phase preserves the all-unvisited invariant (joint over
commands, invoked handlers and command lists, by strong induction on size). -/
theorem construct_WF_aux : ∀ k : Nat,
    (∀ c : Cmd, sizeOf c ≤ k → ∀ s, WFb s = true → WFb (runCmd c s) = true) ∧
    (∀ f : Fn, sizeOf f ≤ k → ∀ s, WFb s = true → WFb (invokeFn f s) = true) ∧
    (∀ l : List Cmd, sizeOf l ≤ k → ∀ s, WFb s = true → WFb (runProg l s) = true) := by
  intro k
  induction k using Nat.strong_induction_on with
  | _ k IH =>
  refine ⟨?_, ?_, ?_⟩
  · intro c hk s hs
    cases c with
    | verb v uri fns =>
        rw [runCmd_verb, WFb]
        rw [WFb, Bool.and_eq_true] at hs
        rw [Bool.and_eq_true]
        exact ⟨by rw [allUnvN_set_ops]; exact hs.1, hs.2⟩
    | endGroup =>
        rw [runCmd_endGroup]
        exact WFb_runEndGroup hs
    | path uri fns =>
        rcases List.eq_nil_or_concat' fns with hnil | ⟨gs, g, hgg⟩
        · subst hnil
          rw [runCmd_path_nofn]
          exact WFb_pathEnter hs uri []
        · subst hgg
          rw [runCmd_path_concat]
          have hsg : sizeOf g < k := by
            have h1 : sizeOf g < sizeOf (gs ++ [g]) :=
              List.sizeOf_lt_of_mem (by simp)
            have h2 : sizeOf (gs ++ [g]) < sizeOf (Cmd.path uri (gs ++ [g])) := by
              cases uri <;> simp <;> omega
            omega
          exact WFb_runEndGroup
            (((IH _ hsg).2).1 g le_rfl _ (WFb_pathEnter hs uri gs))
  · intro f hk s hs
    cases f with
    | mw i => rw [invokeFn_mw]; exact hs
    | cb body =>
        rw [invokeFn_cb]
        have : sizeOf body < k := by
          have : sizeOf body < sizeOf (Fn.cb body) := by simp
          omega
        exact ((IH _ this).2).2 body le_rfl s hs
  · intro l hk s hs
    cases l with
    | nil => rw [runProg_nil]; exact hs
    | cons c cs =>
        rw [runProg_cons]
        have hc : sizeOf c < k := by
          have : sizeOf c < sizeOf (c :: cs) := by
            simp only [List.cons.sizeOf_spec]; omega
          omega
        have hcs : sizeOf cs < k := by
          have : sizeOf cs < sizeOf (c :: cs) := by
            simp only [List.cons.sizeOf_spec]; omega
          omega
        exact ((IH _ hcs).2).2 cs le_rfl _ ((IH _ hc).1 c le_rfl s hs)

/-- Every builder state reachable from `new ApiBuilder()` satisfies the
all-unvisited invariant. -/
theorem WFb_init : WFb initState = true := by
  rw [WFb, initState, createPathElement, Bool.and_eq_true]
  simp only
  constructor
  · rw [allUnvN, allUnvL]
    rfl
  · rfl

theorem WFb_runProg (P : List Cmd) : WFb (runProg P initState) = true :=
  ((construct_WF_aux (sizeOf P)).2).2 P le_rfl initState WFb_init

/-- The verb arrays of the node reached from `n` by the given child-index
path (`none` if the path leaves the tree). -/
def opsAlong : Node → List Nat → Option (Verb → List Op)
  | n, [] => some n.ops
  | n, i :: p =>
      match n.children[i]? with
      | none => none
      | some c => opsAlong c p

/-- The concatenation, root first, of the uri fragments of every node on the
path from `n` (inclusive) down to the addressed node (inclusive). -/
def uriAlong : Node → List Nat → Option String
  | n, [] => some n.uri
  | n, i :: p =>
      match n.children[i]? with
      | none => none
      | some c => (uriAlong c p).map fun sfx => n.uri ++ sfx

/-- The concatenation, root first, of the declared middleware lists of every
node on the path from `n` (inclusive) down to the addressed node
(inclusive). -/
def mwsAlong : Node → List Nat → Option (List Fn)
  | n, [] => some n.middlewares
  | n, i :: p =>
      match n.children[i]? with
      | none => none
      | some c => (mwsAlong c p).map fun sfx => n.middlewares ++ sfx

theorem opsAlong_withMws (X : List Fn) (c : Node) (p : List Nat) :
    opsAlong (c.withMws X) p = opsAlong c p := by
  cases p with
  | nil => rw [opsAlong, opsAlong, Node.ops_withMws]
  | cons i p => rw [opsAlong, opsAlong, Node.children_withMws]

theorem uriAlong_withMws (X : List Fn) (c : Node) (p : List Nat) :
    uriAlong (c.withMws X) p = uriAlong c p := by
  cases p with
  | nil => rw [uriAlong, uriAlong, Node.uri_withMws]
  | cons i p => rw [uriAlong, uriAlong, Node.children_withMws, Node.uri_withMws]

theorem Node.withMws_withMws (A B : List Fn) (c : Node) :
    (c.withMws A).withMws B = c.withMws B := by
  cases c; rfl

theorem Node.withMws_self (c : Node) : c.withMws c.middlewares = c := by
  cases c; rfl

/-- The middleware chain along a path always starts with the root's own
declared list, and replacing the root's list only replaces that prefix. -/
theorem mwsAlong_decomp {c : Node} {p : List Nat} {m2 : List Fn}
    (h : mwsAlong c p = some m2) :
    ∃ rest, m2 = c.middlewares ++ rest ∧
      ∀ X, mwsAlong (c.withMws X) p = some (X ++ rest) := by
  cases p with
  | nil =>
      rw [mwsAlong] at h
      cases h
      exact ⟨[], by rw [List.append_nil],
        fun X => by rw [mwsAlong, Node.middlewares_withMws, List.append_nil]⟩
  | cons i p =>
      rw [mwsAlong] at h
      rcases hc : c.children[i]? with _ | d
      · rw [hc] at h; cases h
      · rw [hc] at h
        simp only at h
        rcases hm : mwsAlong d p with _ | md
        · rw [hm] at h; cases h
        · rw [hm] at h
          simp only [Option.map_some'] at h
          cases h
          refine ⟨md, rfl, fun X => ?_⟩
          rw [mwsAlong, Node.children_withMws, hc]
          simp only [hm, Option.map_some', Node.middlewares_withMws]

theorem mem_drainSpec {anc : String} {n : Node} {r : Reg} (h : r ∈ drainSpec anc n) :
    ∃ op, op ∈ n.ops r.verb ∧ r.path = anc ++ n.uri ++ op.uri ∧
      r.handlers = n.middlewares ++ op.middlewares := by
  rw [drainSpec] at h
  simp only [List.mem_flatMap, List.mem_map, List.mem_reverse] at h
  rcases h with ⟨v, _, op, hop, heq⟩
  subst heq
  exact ⟨op, hop, rfl, rfl⟩

/-- Every registration emitted by flattening a subtree belongs to an
operation stored at some node of that subtree, with the uri and middleware
chain accumulated root-to-leaf along the access path. -/
theorem flatten_mem_aux : ∀ k : Nat,
    (∀ (n : Node) (anc : String) (r : Reg), 2 * nsize n ≤ k →
      r ∈ flattenNode anc n →
      ∃ (p : List Nat) (os : Verb → List Op) (op : Op) (u2 : String) (m2 : List Fn),
        opsAlong n p = some os ∧ op ∈ os r.verb ∧ uriAlong n p = some u2 ∧
        mwsAlong n p = some m2 ∧ r.path = anc ++ (u2 ++ op.uri) ∧
        r.handlers = m2 ++ op.middlewares) ∧
    (∀ (cs : List Node) (anc : String) (inh : List Fn) (r : Reg),
      2 * nsizeList cs + 1 ≤ k → r ∈ flattenChildren anc inh cs →
      ∃ (j : Nat) (c : Node), cs[j]? = some c ∧
      ∃ (p : List Nat) (os : Verb → List Op) (op : Op) (u2 : String) (m2 : List Fn),
        opsAlong c p = some os ∧ op ∈ os r.verb ∧ uriAlong c p = some u2 ∧
        mwsAlong c p = some m2 ∧ r.path = anc ++ (u2 ++ op.uri) ∧
        r.handlers = (inh ++ m2) ++ op.middlewares) := by
  intro k
  induction k using Nat.strong_induction_on with
  | _ k IH =>
  constructor
  · intro n anc r hk hr
    rw [flattenNode_def, List.mem_append] at hr
    rcases hr with hr | hr
    · rcases mem_drainSpec hr with ⟨op, hop, hpath, hh⟩
      exact ⟨[], n.ops, op, n.uri, n.middlewares, by rw [opsAlong], hop,
        by rw [uriAlong], by rw [mwsAlong],
        by rw [hpath, String.append_assoc], hh⟩
    · have hsz : 2 * nsizeList n.children.reverse + 1 < k := by
        rw [nsizeList_reverse]
        have := nsize_children n
        omega
      rcases ((IH _ hsz).2) n.children.reverse (anc ++ n.uri) n.middlewares r
          le_rfl hr with
        ⟨j, c, hj, p, os, op, u2, m2, hos, hop, hu, hm, hpath, hh⟩
      have hcmem : c ∈ n.children := List.mem_reverse.mp (List.getElem?_mem hj)
      rcases List.getElem_of_mem hcmem with ⟨i, hi, he⟩
      have hgi : n.children[i]? = some c := by
        rw [List.getElem?_eq_getElem hi, he]
      refine ⟨i :: p, os, op, n.uri ++ u2, n.middlewares ++ m2, ?_, hop, ?_, ?_, ?_, ?_⟩
      · rw [opsAlong, hgi]
        simp only
        exact hos
      · rw [uriAlong, hgi]
        simp only [hu, Option.map_some']
      · rw [mwsAlong, hgi]
        simp only [hm, Option.map_some']
      · rw [hpath]
        rw [String.append_assoc, String.append_assoc]
      · rw [hh, List.append_assoc]
  · intro cs anc inh r hk hr
    cases cs with
    | nil => rw [flattenChildren_nil] at hr; cases hr
    | cons c cs =>
        rw [flattenChildren_cons, List.mem_append] at hr
        have hsz0 : nsizeList (c :: cs) = nsize c + nsizeList cs := by rw [nsizeList]
        rcases hr with hr | hr
        · have hszc : 2 * nsize (c.withMws (inh ++ c.middlewares)) < k := by
            rw [nsize_withMws]
            omega
          rcases ((IH _ hszc).1) (c.withMws (inh ++ c.middlewares)) anc r le_rfl hr with
            ⟨p, os, op, u2, m2, hos, hop, hu, hm, hpath, hh⟩
          rcases mwsAlong_decomp hm with ⟨rest, hm2, hall⟩
          have hmc : mwsAlong c p = some (c.middlewares ++ rest) := by
            have := hall c.middlewares
            rw [Node.withMws_withMws, Node.withMws_self] at this
            exact this
          refine ⟨0, c, by simp, p, os, op, u2, c.middlewares ++ rest, ?_, hop, ?_, hmc,
            hpath, ?_⟩
          · rw [← opsAlong_withMws (inh ++ c.middlewares) c p]
            exact hos
          · rw [← uriAlong_withMws (inh ++ c.middlewares) c p]
            exact hu
          · rw [hh, hm2]
            simp only [Node.middlewares_withMws]
            simp [List.append_assoc]
        · have hszcs : 2 * nsizeList cs + 1 < k := by
            have := nsize_pos c
            omega
          rcases ((IH _ hszcs).2) cs anc inh r le_rfl hr with
            ⟨j, c2, hj, rest⟩
          exact ⟨j + 1, c2, by simpa using hj, rest⟩

/-- Reassemble the full tree from the zipper: the current node is reattached
as the last child of each ancestor in turn, yielding the tree as seen from
the root element. -/
def plugState (s : BuilderState) : Node :=
  s.stack.foldl
    (fun node f => .mk f.uri f.middlewares f.ops (f.siblings ++ [node]) false) s.cur

theorem plugState_cons (cur : Node) (f : CFrame) (rest : List CFrame) :
    plugState ⟨cur, f :: rest⟩ =
      plugState ⟨.mk f.uri f.middlewares f.ops (f.siblings ++ [cur]) false, rest⟩ := rfl

/-- The child-index path from the root of the reassembled tree down to the
cursor: at each ancestor the chain child is the last child. -/
def cursorPath (st : List CFrame) : List Nat :=
  st.reverse.map fun f => f.siblings.length

theorem cursorPath_cons (f : CFrame) (rest : List CFrame) :
    cursorPath (f :: rest) = cursorPath rest ++ [f.siblings.length] := by
  rw [cursorPath, cursorPath, List.reverse_cons, List.map_append]
  rfl

/-- `ancUri` for construction frames. -/
def ancUriC (st : List CFrame) : String :=
  st.foldl (fun acc f => f.uri ++ acc) ""

theorem ancUriC_shift (st : List CFrame) (acc : String) :
    st.foldl (fun acc f => f.uri ++ acc) acc = ancUriC st ++ acc := by
  induction st generalizing acc with
  | nil => simp [ancUriC, String.empty_append]
  | cons f rest ih =>
      rw [ancUriC, List.foldl_cons, List.foldl_cons, ih, ih (f.uri ++ "")]
      rw [String.append_empty, String.append_assoc]

theorem ancUriC_cons (f : CFrame) (st : List CFrame) :
    ancUriC (f :: st) = ancUriC st ++ f.uri := by
  rw [ancUriC, List.foldl_cons, ancUriC_shift, String.append_empty]

theorem ancUri_initFrames (st : List CFrame) : ancUri (initFrames st) = ancUriC st := by
  induction st with
  | nil => rfl
  | cons f rest ih =>
      rw [initFrames, List.map_cons]
      rw [ancUri_cons, ancUriC_cons, ← ih, initFrames]

theorem opsAlong_plug (stack : List CFrame) (cur : Node) (p : List Nat) :
    opsAlong (plugState ⟨cur, stack⟩) (cursorPath stack ++ p) = opsAlong cur p := by
  induction stack generalizing cur p with
  | nil => rfl
  | cons f rest ih =>
      rw [plugState_cons, cursorPath_cons, List.append_assoc]
      rw [ih]
      rw [List.singleton_append, opsAlong, Node.children_mk,
        List.getElem?_concat_length]

theorem uriAlong_plug (stack : List CFrame) (cur : Node) (p : List Nat) :
    uriAlong (plugState ⟨cur, stack⟩) (cursorPath stack ++ p) =
      (uriAlong cur p).map fun sfx => ancUriC stack ++ sfx := by
  induction stack generalizing cur p with
  | nil =>
      rw [cursorPath]
      simp only [List.reverse_nil, List.map_nil, List.nil_append]
      show uriAlong cur p = _
      rcases h : uriAlong cur p with _ | u
      · rfl
      · rw [Option.map_some']
        rw [show ancUriC [] = "" from rfl, String.empty_append]
  | cons f rest ih =>
      rw [plugState_cons, cursorPath_cons, List.append_assoc]
      rw [ih]
      rw [List.singleton_append, uriAlong, Node.children_mk,
        List.getElem?_concat_length]
      simp only [Node.uri_mk]
      rcases h : uriAlong cur p with _ | u
      · rfl
      · simp only [Option.map_some', ancUriC_cons, String.append_assoc]

theorem initFrames_cons (f : CFrame) (rest : List CFrame) :
    initFrames (f :: rest) =
      ⟨f.uri, f.middlewares, f.ops, f.siblings, false, true⟩ :: initFrames rest := rfl

/-- `r` registers an operation that is stored somewhere in the tree `T`, at
the uri obtained by concatenating, root first, every uri fragment on the
path down to that node, followed by the operation's own fragment. -/
def RegFromTree (T : Node) (r : Reg) : Prop :=
  ∃ (p : List Nat) (os : Verb → List Op) (op : Op) (u2 : String),
    opsAlong T p = some os ∧ op ∈ os r.verb ∧ uriAlong T p = some u2 ∧
    r.path = u2 ++ op.uri

theorem sweep_mem : ∀ (stack : List CFrame) (cur : Node) (r : Reg),
    r ∈ sweepF (initFrames stack) → RegFromTree (plugState ⟨cur, stack⟩) r := by
  intro stack
  induction stack with
  | nil =>
      intro cur r hr
      rw [show initFrames [] = [] from rfl, sweepF_nil] at hr
      cases hr
  | cons f rest ih =>
      intro cur r hr
      rw [initFrames_cons, sweepF_cons] at hr
      simp only [List.mem_append] at hr
      rw [plugState_cons]
      rcases hr with (hr | hr) | hr
      · rcases mem_drainSpec hr with ⟨op, hop, hpath, _⟩
        simp only [Node.ops_mk, Node.uri_mk] at hop hpath
        refine ⟨cursorPath rest, _, op, ancUriC rest ++ f.uri, ?_, hop, ?_, ?_⟩
        · have := opsAlong_plug rest
            (.mk f.uri f.middlewares f.ops (f.siblings ++ [cur]) false) []
          rw [List.append_nil] at this
          rw [this, opsAlong, Node.ops_mk]
        · have := uriAlong_plug rest
            (.mk f.uri f.middlewares f.ops (f.siblings ++ [cur]) false) []
          rw [List.append_nil] at this
          rw [this, uriAlong, Node.uri_mk, Option.map_some']
        · rw [hpath, ancUri_initFrames, String.append_assoc]
      · rcases ((flatten_mem_aux (2 * nsizeList f.siblings.reverse + 1)).2)
            f.siblings.reverse _ f.middlewares r le_rfl hr with
          ⟨j, c, hj, p, os, op, u2, m2, hos, hop, hu, _, hpath, _⟩
        have hcmem : c ∈ f.siblings := List.mem_reverse.mp (List.getElem?_mem hj)
        rcases List.getElem_of_mem hcmem with ⟨i, hi, he⟩
        have hgi : (f.siblings ++ [cur])[i]? = some c := by
          rw [List.getElem?_append_left hi, List.getElem?_eq_getElem hi, he]
        refine ⟨cursorPath rest ++ (i :: p), os, op,
          ancUriC rest ++ (f.uri ++ u2), ?_, hop, ?_, ?_⟩
        · rw [opsAlong_plug, opsAlong, Node.children_mk, hgi]
          exact hos
        · rw [uriAlong_plug, uriAlong, Node.children_mk, hgi]
          simp only [Node.uri_mk, hu, Option.map_some']
        · rw [hpath, ancUri_initFrames]
          rw [String.append_assoc, String.append_assoc, String.append_assoc]
      · exact ih _ r hr

/-- Every registration `build` issues (from any builder state the
construction phase can reach) is one of the tree's stored operations,
registered at the root-to-leaf concatenation of uri fragments. -/
theorem buildRegs_located {s : BuilderState} (hWF : WFb s = true) :
    ∀ r ∈ buildRegs s, RegFromTree (plugState s) r := by
  intro r hr
  rw [buildRegs, build_master hWF none] at hr
  simp only [Option.getD_none, List.nil_append, List.mem_append] at hr
  obtain ⟨cur, stack⟩ := s
  rcases hr with hr | hr
  · rcases ((flatten_mem_aux (2 * nsize cur)).1) cur _ r le_rfl hr with
      ⟨p, os, op, u2, m2, hos, hop, hu, _, hpath, _⟩
    refine ⟨cursorPath stack ++ p, os, op, ancUriC stack ++ u2, ?_, hop, ?_, ?_⟩
    · rw [opsAlong_plug]
      exact hos
    · rw [uriAlong_plug, hu, Option.map_some']
    · rw [hpath, ancUri_initFrames, String.append_assoc]
  · exact sweep_mem stack cur r hr

/-- All verb arrays of an ops table are empty (the state `drain` leaves
behind). -/
def emptyOpsOf (o : Verb → List Op) : Bool :=
  methods.all fun v => (o v).isEmpty

mutual
/-- Every verb array of every node of the subtree is empty — the state of a
tree that a completed `build` has fully drained. -/
def noOpsN : Node → Bool
  | .mk _ _ o cs _ => emptyOpsOf o && noOpsL cs
termination_by n => sizeOf n
decreasing_by simp_wf; omega

def noOpsL : List Node → Bool
  | [] => true
  | c :: cs => noOpsN c && noOpsL cs
termination_by l => sizeOf l
decreasing_by all_goals simp_wf <;> omega
end

def noOpsF (f : BFrame) : Bool :=
  emptyOpsOf f.ops && noOpsL f.children

/-- A build-loop state over a fully drained tree. -/
def NoOpsState (s : BState) : Bool :=
  noOpsN s.cur && s.stack.all noOpsF

theorem noOpsL_append_eq (l1 l2 : List Node) :
    noOpsL (l1 ++ l2) = (noOpsL l1 && noOpsL l2) := by
  induction l1 with
  | nil => rw [List.nil_append, noOpsL, Bool.true_and]
  | cons c cs ih => rw [List.cons_append, noOpsL, noOpsL, ih, Bool.and_assoc]

theorem noOpsN_withMws (m : List Fn) (n : Node) : noOpsN (n.withMws m) = noOpsN n := by
  cases n with
  | mk u m2 o cs v => rw [Node.withMws, noOpsN, noOpsN]

theorem emptyOpsOf_emptyOps : emptyOpsOf emptyOps = true := by
  rw [emptyOpsOf]
  simp [emptyOps]

theorem drainSpec_of_empty {e : Node} (h : emptyOpsOf e.ops = true) (anc : String) :
    drainSpec anc e = [] := by
  rw [emptyOpsOf, List.all_eq_true] at h
  rw [drainSpec]
  rw [List.flatMap_eq_nil_iff]
  intro v hv
  have := h v hv
  rw [List.isEmpty_iff] at this
  rw [this]
  rfl

theorem processAt_noOps {e : Node} {stack : List BFrame} (regs : List Reg)
    (he : noOpsN e = true) (hst : stack.all noOpsF = true) :
    NoOpsState (processAt e stack regs) = true ∧
      (processAt e stack regs).regs = regs := by
  cases e with
  | mk u m o cs v =>
    rw [noOpsN, Bool.and_eq_true] at he
    have hdrain : drainAll stack (Node.mk u m o cs v) = [] := by
      rw [drainAll_eq_drainSpec]
      exact drainSpec_of_empty (by rw [Node.ops_mk]; exact he.1) _
    unfold processAt
    rw [hdrain, List.append_nil]
    rcases hc : popLast (Node.mk u m o cs v).children with _ | ⟨ds, d⟩
    · refine ⟨?_, rfl⟩
      rw [NoOpsState, Bool.and_eq_true]
      refine ⟨?_, hst⟩
      rw [noOpsN, noOpsL, Bool.and_eq_true]
      exact ⟨emptyOpsOf_emptyOps, rfl⟩
    · have hcc : cs = ds ++ [d] := by
        rw [Node.children_mk] at hc
        exact popLast_eq_some hc
      subst hcc
      have h2 := he.2
      rw [noOpsL_append_eq, noOpsL, noOpsL, Bool.and_eq_true, Bool.and_eq_true] at h2
      refine ⟨?_, rfl⟩
      rw [NoOpsState, Bool.and_eq_true]
      constructor
      · simp only
        rw [noOpsN_withMws]
        exact h2.2.1
      · simp only [List.all_cons, Bool.and_eq_true]
        refine ⟨?_, hst⟩
        rw [noOpsF, Bool.and_eq_true]
        exact ⟨emptyOpsOf_emptyOps, h2.1⟩

/-- On a fully drained tree, one iteration keeps the tree drained and
registers nothing. -/
theorem step_noOps {s s2 : BState} (hno : NoOpsState s = true)
    (hs : step s = some s2) : NoOpsState s2 = true ∧ s2.regs = s.regs := by
  rw [NoOpsState, Bool.and_eq_true] at hno
  unfold step at hs
  by_cases hv : s.cur.visited
  · simp only [hv, if_true] at hs
    rcases hst : s.stack with _ | ⟨f, rest⟩
    · rw [hst] at hs; cases hs
    · rw [hst] at hs
      simp only [Option.some.injEq] at hs
      subst hs
      have hall := hno.2
      rw [hst, List.all_cons, Bool.and_eq_true] at hall
      rw [noOpsF, Bool.and_eq_true] at hall
      refine processAt_noOps s.regs ?_ hall.2
      rw [noOpsN, Bool.and_eq_true]
      refine ⟨hall.1.1, ?_⟩
      by_cases hr : f.reattach
      · rw [hr, if_pos rfl, noOpsL_append_eq, noOpsL, noOpsL]
        simp [hall.1.2, hno.1]
      · simp only [hr, Bool.false_eq_true, if_false]
        exact hall.1.2
  · simp only [hv, Bool.false_eq_true, if_false, Option.some.injEq] at hs
    subst hs
    exact processAt_noOps s.regs hno.1 hno.2

/-- Over a fully drained tree the loop registers nothing at all. -/
theorem loop_noOps : ∀ (k : Nat) (s : BState), mu s ≤ k → NoOpsState s = true →
    loop s = s.regs := by
  intro k
  induction k using Nat.strong_induction_on with
  | _ k IH =>
  intro s hmu hno
  rcases hstep : step s with _ | s2
  · exact loop_none hstep
  · rw [loop_some hstep]
    have hd := mu_decreases hstep
    rcases step_noOps hno hstep with ⟨h1, h2⟩
    rw [IH (mu s2) (by omega) s2 le_rfl h1, h2]

/-- Iterating `step` from any state reaches the exit within `mu` steps. -/
theorem stepN_halts : ∀ (k : Nat) (s : BState), mu s ≤ k → ∃ n, stepN n s = none := by
  intro k
  induction k using Nat.strong_induction_on with
  | _ k IH =>
  intro s hmu
  rcases hstep : step s with _ | s2
  · exact ⟨1, by rw [stepN, hstep]⟩
  · have hd := mu_decreases hstep
    rcases IH (mu s2) (by omega) s2 le_rfl with ⟨n, hn⟩
    exact ⟨n + 1, by rw [stepN, hstep]; exact hn⟩

/-- State of the global object when builder methods are invoked without
their owner (the `.cjs` module is non-strict, so a bare call gets
`this = globalThis`): `none` while `globalThis.currentElement` is still
undefined, otherwise the pseudo-builder living on the global object. -/
def GState : Type := Option BuilderState

/-- `end` on the global object (lines 160-164): `this.currentElement` is
undefined (no move) or a node whose `parentElement` may be null. -/
def runEndGroupG : GState → GState
  | none => none
  | some s => some (runEndGroup s)

/-- `path` on the global object up to the cursor move (lines 138-144): when
`this.currentElement` is undefined the new element gets a null parent and
the `children.push` is skipped (line 142's guard); afterwards
`globalThis.currentElement` is the new element. -/
def pathEnterG (g : GState) (uri : Option String) (mws : List Fn) : BuilderState :=
  match g with
  | none => ⟨createPathElement (uri.getD "") mws, []⟩
  | some s => pathEnter s uri mws

mutual
/-- A builder call whose receiver is not an `ApiBuilder` instance (the
method was destructured and called bare).  The verb methods throw their
guard error (lines 77-78); `path` has no such guard (lines 132-152) and
silently operates on the global object. -/
def runCmdG : Cmd → GState → Except String GState
  | .verb _ _ _, _ => .error "don't destructure the builder"
  | .endGroup, g => .ok (runEndGroupG g)
  | .path uri fns, g =>
      match h : fns.getLast? with
      | none => .ok (some (pathEnterG g uri []))
      | some f => do
          let g2 ← invokeFnG f (some (pathEnterG g uri fns.dropLast))
          pure (runEndGroupG g2)
termination_by c _ => sizeOf c
decreasing_by
  have hm : f ∈ fns := by
    rcases @List.mem_getLast?_eq_getLast _ fns f h with ⟨hne, hf⟩
    exact hf ▸ List.getLast_mem hne
  have := List.sizeOf_lt_of_mem hm
  simp_wf
  omega

/-- `handler(this)` with `this = globalThis`: a middleware reference ignores
its argument; a callback runs its body against the global pseudo-builder,
so every verb call inside it throws the guard error. -/
def invokeFnG : Fn → GState → Except String GState
  | .mw _, g => .ok g
  | .cb body, g => runProgG body g
termination_by f _ => sizeOf f
decreasing_by simp_wf

def runProgG : List Cmd → GState → Except String GState
  | [], g => .ok g
  | c :: cs, g => do
      let g2 ← runCmdG c g
      runProgG cs g2
termination_by l _ => sizeOf l
decreasing_by all_goals simp_wf <;> omega
end

/-- `runCmd` on `path`, with the handler match in non-dependent form. -/
theorem runCmd_path_eq (u : Option String) (fns : List Fn) (s : BuilderState) :
    runCmd (.path u fns) s =
      (match fns.getLast? with
       | none => pathEnter s u []
       | some f => runEndGroup (invokeFn f (pathEnter s u fns.dropLast))) := by
  rw [runCmd]
  split
  · rename_i h
    rw [h]
  · rename_i f h
    rw [h]

/-- With enough fuel, the structural interpreter agrees with the real one. -/
theorem runN_agree : ∀ (n : Nat) (x : Cmd ⊕ (Fn ⊕ List Cmd)) (s : BuilderState),
    (match x with
     | .inl c => sizeOf c
     | .inr (.inl f) => sizeOf f
     | .inr (.inr l) => sizeOf l) ≤ n →
    runN n x s =
      (match x with
       | .inl c => runCmd c s
       | .inr (.inl f) => invokeFn f s
       | .inr (.inr l) => runProg l s) := by
  intro n
  induction n with
  | zero =>
      intro x s hx
      exfalso
      rcases x with c | f | l
      · simp only at hx
        cases c <;> simp at hx
      · simp only at hx
        cases f <;> simp at hx
      · simp only at hx
        cases l <;> simp at hx
  | succ n ih =>
      intro x s hx
      rcases x with c | f | l
      · simp only at hx ⊢
        cases c with
        | verb v uri fns =>
            rw [runN, runCmd_verb]
        | endGroup =>
            rw [runN, runCmd_endGroup]
        | path uri fns =>
            rw [runN, runCmd_path_eq]
            rcases hg : fns.getLast? with _ | f
            · simp only
            · simp only
              have hf : sizeOf f ≤ n := by
                have hm : f ∈ fns := by
                  rcases @List.mem_getLast?_eq_getLast _ fns f hg with ⟨hne, hfe⟩
                  exact hfe ▸ List.getLast_mem hne
                have h1 := List.sizeOf_lt_of_mem hm
                have h3 : 1 ≤ sizeOf uri := by cases uri <;> simp
                simp only [Cmd.path.sizeOf_spec] at hx
                omega
              rw [ih (.inr (.inl f)) (pathEnter s uri fns.dropLast) hf]
      · simp only at hx ⊢
        cases f with
        | mw i => rw [runN, invokeFn_mw]
        | cb body =>
            rw [runN, invokeFn_cb]
            have hb : sizeOf body ≤ n := by
              simp only [Fn.cb.sizeOf_spec] at hx
              omega
            exact ih (.inr (.inr body)) s hb
      · simp only at hx ⊢
        cases l with
        | nil => rw [runN, runProg_nil]
        | cons c cs =>
            rw [runN, runProg_cons]
            have h1 : sizeOf (c :: cs) = 1 + sizeOf c + sizeOf cs := by simp
            have hc : sizeOf c ≤ n := by omega
            have hcs : sizeOf cs ≤ n := by omega
            rw [ih (.inl c) s hc]
            exact ih (.inr (.inr cs)) _ hcs

/-- Kernel-computable form of `runProg` on a concrete program. -/
theorem runProg_eval (P : List Cmd) (s : BuilderState) :
    runProg P s = runN (sizeOf P) (.inr (.inr P)) s :=
  (runN_agree (sizeOf P) (.inr (.inr P)) s le_rfl).symm

/-- Kernel-computable form of `runCmd` on a concrete call. -/
theorem runCmd_eval (c : Cmd) (s : BuilderState) :
    runCmd c s = runN (sizeOf c) (.inl c) s :=
  (runN_agree (sizeOf c) (.inl c) s le_rfl).symm

/-- `runCmdG` on `path`, with the handler match in non-dependent form. -/
theorem runCmdG_path_eq (u : Option String) (fns : List Fn) (g : GState) :
    runCmdG (.path u fns) g =
      (match fns.getLast? with
       | none => .ok (some (pathEnterG g u []))
       | some f => do
           let g2 ← invokeFnG f (some (pathEnterG g u fns.dropLast))
           pure (runEndGroupG g2)) := by
  rw [runCmdG]
  split
  · rename_i h
    rw [h]
  · rename_i f h
    rw [h]

/-- The build loop with explicit fuel (for evaluating concrete runs). -/
def loopN : Nat → BState → List Reg
  | 0, s => s.regs
  | n + 1, s =>
      match step s with
      | none => s.regs
      | some s2 => loopN n s2

theorem loop_eq_loopN : ∀ (n : Nat) (s : BState), stepN n s = none → loop s = loopN n s := by
  intro n
  induction n with
  | zero => intro s h; rw [stepN] at h; cases h
  | succ n ih =>
      intro s h
      rw [stepN] at h
      rw [loopN]
      rcases hs : step s with _ | s2
      · exact loop_none hs
      · rw [hs] at h
        rw [loop_some hs]
        exact ih s2 h

mutual
/-- The stored `middlewares` field of every node of a subtree. -/
def mwFieldsN : Node → List (List Fn)
  | .mk _ m _ cs _ => m :: mwFieldsL cs
termination_by n => sizeOf n
decreasing_by simp_wf; omega

def mwFieldsL : List Node → List (List Fn)
  | [] => []
  | c :: cs => mwFieldsN c ++ mwFieldsL cs
termination_by l => sizeOf l
decreasing_by all_goals simp_wf <;> omega
end

def mwFieldsF (f : CFrame) : List (List Fn) :=
  f.middlewares :: mwFieldsL f.siblings

/-- The multiset of all `middlewares` fields stored anywhere in a builder
state. -/
def mwFieldsS (s : BuilderState) : Multiset (List Fn) :=
  ↑(mwFieldsN s.cur) + ↑(s.stack.flatMap mwFieldsF)

mutual
/-- The middleware lists with which the commands create their nodes: each
`path` call stores its (handler-stripped) middleware list at node-creation
time (line 140), and nothing else ever stores one. -/
def createdCmd : Cmd → List (List Fn)
  | .path _ fns =>
      fns.dropLast ::
        (match h : fns.getLast? with
         | none => []
         | some f => createdFn f)
  | .endGroup => []
  | .verb _ _ _ => []
termination_by c => sizeOf c
decreasing_by
  have hm : f ∈ fns := by
    rcases @List.mem_getLast?_eq_getLast _ fns f h with ⟨hne, hf⟩
    exact hf ▸ List.getLast_mem hne
  have := List.sizeOf_lt_of_mem hm
  simp_wf
  omega

def createdFn : Fn → List (List Fn)
  | .mw _ => []
  | .cb body => createdProg body
termination_by f => sizeOf f
decreasing_by simp_wf

def createdProg : List Cmd → List (List Fn)
  | [] => []
  | c :: cs => createdCmd c ++ createdProg cs
termination_by l => sizeOf l
decreasing_by all_goals simp_wf <;> omega
end

theorem createdCmd_path_eq (u : Option String) (fns : List Fn) :
    createdCmd (.path u fns) =
      fns.dropLast ::
        (match fns.getLast? with
         | none => []
         | some f => createdFn f) := by
  rw [createdCmd]
  split
  · rename_i h
    rw [h]
  · rename_i f h
    rw [h]

theorem mwFieldsL_append (l1 l2 : List Node) :
    mwFieldsL (l1 ++ l2) = mwFieldsL l1 ++ mwFieldsL l2 := by
  induction l1 with
  | nil => rw [List.nil_append, mwFieldsL, List.nil_append]
  | cons c cs ih => rw [List.cons_append, mwFieldsL, mwFieldsL, ih, List.append_assoc]

theorem mwFieldsF_ofNode (n : Node) : mwFieldsF (CFrame.ofNode n) = mwFieldsN n := by
  cases n with
  | mk u m o cs v =>
      rw [CFrame.ofNode, mwFieldsF, mwFieldsN]
      simp

theorem mwFieldsN_set_ops (n : Node) (o2 : Verb → List Op) :
    mwFieldsN (.mk n.uri n.middlewares o2 n.children n.visited) = mwFieldsN n := by
  cases n with
  | mk u m o cs v =>
      rw [mwFieldsN, mwFieldsN]
      simp

/-- `end` moves fields around the zipper but stores no new list and drops
none. -/
theorem mwFieldsS_runEndGroup (s : BuilderState) :
    mwFieldsS (runEndGroup s) = mwFieldsS s := by
  obtain ⟨cur, stack⟩ := s
  rcases stack with _ | ⟨f, rest⟩
  · rfl
  · rw [runEndGroup]
    simp only
    rw [mwFieldsS, mwFieldsS]
    simp only
    rw [mwFieldsN, mwFieldsL_append]
    rw [List.flatMap_cons, mwFieldsF]
    have h1 : mwFieldsL [cur] = mwFieldsN cur ++ [] := by
      rw [mwFieldsL, mwFieldsL]
    rw [h1, List.append_nil]
    rw [Multiset.coe_add, Multiset.coe_add, Multiset.coe_eq_coe]
    rw [List.cons_append, List.cons_append]
    refine List.Perm.trans (List.Perm.cons _ ?_) List.perm_middle.symm
    rw [← List.append_assoc]
    exact List.perm_append_comm.append_right _

/-- Entering a group adds exactly the new node's creation list. -/
theorem mwFieldsS_pathEnter (s : BuilderState) (uri : Option String) (mws : List Fn) :
    mwFieldsS (pathEnter s uri mws) = mwFieldsS s + {mws} := by
  rw [pathEnter, createPathElement, mwFieldsS, mwFieldsS]
  simp only
  rw [mwFieldsN, mwFieldsL, List.flatMap_cons, mwFieldsF_ofNode]
  rw [← Multiset.coe_singleton, Multiset.coe_add, Multiset.coe_add, Multiset.coe_add,
    Multiset.coe_eq_coe]
  exact List.perm_append_comm

/-- Construction never changes a stored middleware list: after any commands,
the stored lists are exactly the old ones plus the creation-time list of each
node the commands created. -/
theorem mwFields_aux : ∀ k : Nat,
    (∀ c : Cmd, sizeOf c ≤ k → ∀ s,
      mwFieldsS (runCmd c s) = mwFieldsS s + ↑(createdCmd c)) ∧
    (∀ f : Fn, sizeOf f ≤ k → ∀ s,
      mwFieldsS (invokeFn f s) = mwFieldsS s + ↑(createdFn f)) ∧
    (∀ l : List Cmd, sizeOf l ≤ k → ∀ s,
      mwFieldsS (runProg l s) = mwFieldsS s + ↑(createdProg l)) := by
  intro k
  induction k using Nat.strong_induction_on with
  | _ k IH =>
  refine ⟨?_, ?_, ?_⟩
  · intro c hk s
    cases c with
    | verb v uri fns =>
        rw [runCmd_verb, createdCmd]
        rw [mwFieldsS, mwFieldsS]
        simp only
        rw [mwFieldsN_set_ops]
        simp
    | endGroup =>
        rw [runCmd_endGroup, createdCmd, mwFieldsS_runEndGroup]
        simp
    | path uri fns =>
        rcases List.eq_nil_or_concat' fns with hnil | ⟨gs, g, hgg⟩
        · subst hnil
          rw [runCmd_path_nofn, createdCmd_path_eq, mwFieldsS_pathEnter]
          simp only [List.dropLast_nil, List.getLast?_nil]
          rfl
        · subst hgg
          rw [runCmd_path_concat, createdCmd_path_eq]
          rw [List.getLast?_concat, List.dropLast_concat]
          have hsg : sizeOf g < k := by
            have h1 : sizeOf g < sizeOf (gs ++ [g]) :=
              List.sizeOf_lt_of_mem (by simp)
            have h2 : sizeOf (gs ++ [g]) < sizeOf (Cmd.path uri (gs ++ [g])) := by
              cases uri <;> simp <;> omega
            omega
          rw [mwFieldsS_runEndGroup, ((IH _ hsg).2).1 g le_rfl, mwFieldsS_pathEnter]
          rw [← Multiset.coe_singleton]
          rw [show ((gs :: createdFn g : List (List Fn)) : Multiset (List Fn))
              = ↑([gs] ++ createdFn g) from rfl]
          rw [← Multiset.coe_add]
          rw [add_assoc]
  · intro f hk s
    cases f with
    | mw i => rw [invokeFn_mw, createdFn]; simp
    | cb body =>
        rw [invokeFn_cb, createdFn]
        have : sizeOf body < k := by
          have : sizeOf body < sizeOf (Fn.cb body) := by simp
          omega
        exact ((IH _ this).2).2 body le_rfl s
  · intro l hk s
    cases l with
    | nil => rw [runProg_nil, createdProg]; simp
    | cons c cs =>
        rw [runProg_cons, createdProg]
        have hc : sizeOf c < k := by
          have : sizeOf c < sizeOf (c :: cs) := by
            simp only [List.cons.sizeOf_spec]; omega
          omega
        have hcs : sizeOf cs < k := by
          have : sizeOf cs < sizeOf (c :: cs) := by
            simp only [List.cons.sizeOf_spec]; omega
          omega
        rw [((IH _ hcs).2).2 cs le_rfl, (IH _ hc).1 c le_rfl]
        rw [add_assoc, Multiset.coe_add]

theorem flatMap_methods_single (v : Verb) (g : Verb → List Reg)
    (hg : ∀ w, w ≠ v → g w = []) : methods.flatMap g = g v := by
  cases v <;> simp [methods, hg]

/-- The program of the C1 counterexample: nested callbacks in which the
innermost callback descends two levels without exiting, so after the
automatic walk-backs the cursor rests two levels below the root when `build`
is invoked. -/
def cexProgC1 : List Cmd :=
  [.path (some "/p") [.mw 0, .cb [.path (some "/a") [.mw 1, .cb [
      .path (some "/x") [], .path (some "/y") [],
      .verb .get (some "/g") [.mw 2]]]]]]

theorem cexProgC1_eval : runProg cexProgC1 initState =
    ⟨.mk "/a" [.mw 1] emptyOps
        [.mk "/x" [] emptyOps
            [.mk "/y" [] (pushVerbOp emptyOps Verb.get ⟨"/g", [.mw 2]⟩) [] false] false]
        false,
      [⟨"/p", [.mw 0], emptyOps, []⟩, ⟨"", [], emptyOps, []⟩]⟩ := by
  rw [runProg_eval]
  rfl

/-- C1, counterexample.  The tree has nodes `/p` (middleware `mw 0`), `/a`
(`mw 1`), `/x`, `/y`, with a `get /g` operation (middleware `mw 2`) on `/y`;
`build` is invoked with the cursor resting on `/a`.  The chain actually
registered is `[mw 1, mw 2]`, while the ancestors of the operation's node
declare `[mw 0, mw 1]`, so the claimed chain would be `[mw 0, mw 1, mw 2]`:
the middleware of the ancestor `/p`, which lies above the cursor at build
time, is dropped even though `/p` appears in the registered path. -/
theorem c1_counterexample :
    buildRegs (runProg cexProgC1 initState) =
      [⟨Verb.get, "/p/a/x/y/g", [Fn.mw 1, Fn.mw 2]⟩] ∧
    mwsAlong (plugState (runProg cexProgC1 initState)) [0, 0, 0, 0] =
      some [Fn.mw 0, Fn.mw 1] ∧
    opsAlong (plugState (runProg cexProgC1 initState)) [0, 0, 0, 0] =
      some (pushVerbOp emptyOps Verb.get ⟨"/g", [Fn.mw 2]⟩) ∧
    [Fn.mw 1, Fn.mw 2] ≠ [Fn.mw 0, Fn.mw 1] ++ [Fn.mw 2] := by
  refine ⟨?_, ?_, ?_, ?_⟩
  · rw [cexProgC1_eval]
    refine (loop_eq_loopN 12 _ ?_).trans rfl
    rfl
  · rw [cexProgC1_eval]
    rfl
  · rw [cexProgC1_eval]
    rfl
  · simp

/-- C1, amended (the unrestricted claim fails when `build` is invoked with
the cursor below a middleware-carrying ancestor, see the counterexample):
when `build` is invoked with the cursor at the root, the middleware chain
registered for every operation is the concatenation, root first, of the
declared middleware lists of all ancestors of the operation's node
(including that node), followed by the operation's own middlewares. -/
theorem c1_amended_theorem :
    ∀ (P : List Cmd), (runProg P initState).stack = [] →
      ∀ r ∈ buildRegs (runProg P initState),
        ∃ (p : List Nat) (os : Verb → List Op) (op : Op) (m2 : List Fn),
          opsAlong (runProg P initState).cur p = some os ∧ op ∈ os r.verb ∧
          mwsAlong (runProg P initState).cur p = some m2 ∧
          r.handlers = m2 ++ op.middlewares := by
  intro P hst r hr
  have hWF := WFb_runProg P
  rw [buildRegs, build_master hWF none, hst] at hr
  rw [show initFrames [] = [] from rfl, sweepF_nil, List.append_nil] at hr
  simp only [Option.getD_none, List.nil_append] at hr
  rcases ((flatten_mem_aux (2 * nsize (runProg P initState).cur)).1)
      (runProg P initState).cur _ r le_rfl hr with
    ⟨p, os, op, u2, m2, hos, hop, _, hm, _, hh⟩
  exact ⟨p, os, op, m2, hos, hop, hm, hh⟩

def progC1w : List Cmd :=
  [.path (some "/a") [.mw 3, .cb [.verb .get (some "/g") [.mw 4]]]]

theorem c1_witness :
    (runProg progC1w initState).stack = [] ∧
    (∀ r ∈ buildRegs (runProg progC1w initState),
      ∃ (p : List Nat) (os : Verb → List Op) (op : Op) (m2 : List Fn),
        opsAlong (runProg progC1w initState).cur p = some os ∧ op ∈ os r.verb ∧
        mwsAlong (runProg progC1w initState).cur p = some m2 ∧
        r.handlers = m2 ++ op.middlewares) := by
  have hst : (runProg progC1w initState).stack = [] := by
    rw [runProg_eval]
    rfl
  exact ⟨hst, c1_amended_theorem progC1w hst⟩

/-- C2, confirmed.  For every sequence of builder calls, every registration
`build` issues carries the path obtained by concatenating, root first, every
ancestor's declared uri fragment down to (and including) the node holding
the operation, followed by the operation's own fragment, with no separators
inserted (`uriAlong` is literally that concatenation; the tree is the one
reassembled from the builder's zipper, and `mountUri` walks real parent
pointers, so this holds wherever the cursor rests at build time). -/
theorem c2_full_paths (P : List Cmd) :
    ∀ r ∈ buildRegs (runProg P initState),
      RegFromTree (plugState (runProg P initState)) r :=
  buildRegs_located (WFb_runProg P)

def progC2w : List Cmd := [.verb .get (some "/h") [.mw 0]]

theorem c2_witness :
    RegFromTree (plugState (runProg progC2w initState))
      ⟨Verb.get, "/h", [Fn.mw 0]⟩ := by
  have hlit : runProg progC2w initState =
      ⟨.mk "" [] (pushVerbOp emptyOps Verb.get ⟨"/h", [.mw 0]⟩) [] false, []⟩ := by
    rw [runProg_eval]
    rfl
  have hregs : buildRegs (runProg progC2w initState) =
      [⟨Verb.get, "/h", [Fn.mw 0]⟩] := by
    rw [hlit]
    refine (loop_eq_loopN 3 _ ?_).trans rfl
    rfl
  exact c2_full_paths progC2w _ (by rw [hregs]; exact List.mem_singleton.mpr rfl)

/-- C3, counterexample.  `path('/a', cb)` where the callback enters `/x` and
does not exit: the automatic single `end()` (line 148) walks back only one
level, so after the call the cursor rests on the new node `/a` — not on the
node (the root) that was current immediately before the call. -/
theorem c3_counterexample :
    (runCmd (.path (some "/a") [.cb [.path (some "/x") []]]) initState).cur.uri
      = "/a" ∧
    initState.cur.uri = "" ∧
    (runCmd (.path (some "/a") [.cb [.path (some "/x") []]]) initState).cur.uri
      ≠ initState.cur.uri := by
  have h : (runCmd (.path (some "/a") [.cb [.path (some "/x") []]]) initState).cur.uri
      = "/a" := by
    rw [runCmd_eval]
    rfl
  refine ⟨h, rfl, ?_⟩
  rw [h]
  simp [initState, createPathElement]

/-- C3, amended (the original claim fails when the callback leaves the
cursor somewhere other than the new node, see the counterexample): a
trailing callback is invoked synchronously with the cursor on the newly
created node, and on return exactly one Exit-group is performed — so the
cursor becomes the parent of wherever the callback left it; in particular,
whenever the callback returns with the cursor still at the new node, the
cursor is restored to the node that was current before the call (now
carrying the new child). -/
theorem c3_amended_theorem :
    ∀ (s : BuilderState) (uri : Option String) (fns : List Fn) (body : List Cmd),
      runCmd (.path uri (fns ++ [.cb body])) s =
        runEndGroup (runProg body (pathEnter s uri fns)) ∧
      ((runProg body (pathEnter s uri fns)).stack = (pathEnter s uri fns).stack →
        (runCmd (.path uri (fns ++ [.cb body])) s).cur =
          .mk s.cur.uri s.cur.middlewares s.cur.ops
            (s.cur.children ++ [(runProg body (pathEnter s uri fns)).cur]) false ∧
        (runCmd (.path uri (fns ++ [.cb body])) s).stack = s.stack) := by
  intro s uri fns body
  have h1 : runCmd (.path uri (fns ++ [.cb body])) s =
      runEndGroup (runProg body (pathEnter s uri fns)) := by
    rw [runCmd_path_concat, invokeFn_cb]
  refine ⟨h1, fun hst => ?_⟩
  rw [h1, runEndGroup, hst]
  rw [show (pathEnter s uri fns).stack = CFrame.ofNode s.cur :: s.stack from rfl]
  simp only [CFrame.ofNode]
  exact ⟨trivial, trivial⟩

theorem c3_witness :
    (runProg [.verb .get (some "/g") []] (pathEnter initState (some "/b") [])).stack =
      (pathEnter initState (some "/b") []).stack ∧
    (runCmd (.path (some "/b") ([] ++ [.cb [.verb .get (some "/g") []]])) initState).cur =
      .mk initState.cur.uri initState.cur.middlewares initState.cur.ops
        (initState.cur.children ++
          [(runProg [.verb .get (some "/g") []]
            (pathEnter initState (some "/b") [])).cur]) false ∧
    (runCmd (.path (some "/b") ([] ++ [.cb [.verb .get (some "/g") []]])) initState).stack =
      initState.stack := by
  have hst : (runProg [.verb .get (some "/g") []]
      (pathEnter initState (some "/b") [])).stack =
      (pathEnter initState (some "/b") []).stack := by
    rw [runProg_eval]
    rfl
  rcases (c3_amended_theorem initState (some "/b") [] [.verb .get (some "/g") []]).2 hst
    with ⟨hcur, hstack⟩
  exact ⟨hst, hcur, hstack⟩

/-- C4, counterexample.  `path('/a', mw7)` with a single trailing ordinary
middleware: line 138 pops it unconditionally, so the created node's
middleware list is empty — the middleware does not remain in the list — and
the popped function is invoked as the scoped callback (line 147) with the
automatic walk-back. -/
theorem c4_counterexample :
    (runCmd (.path (some "/a") [.mw 7]) initState).cur.children.map
        Node.middlewares = [[]] ∧
    runCmd (.path (some "/a") [.mw 7]) initState =
      runEndGroup (invokeFn (.mw 7) (pathEnter initState (some "/a") [])) ∧
    ([[]] : List (List Fn)) ≠ [[Fn.mw 7]] := by
  refine ⟨?_, ?_, ?_⟩
  · rw [runCmd_eval]
    rfl
  · show runCmd (.path (some "/a") ([] ++ [.mw 7])) initState = _
    exact runCmd_path_concat (some "/a") [] (.mw 7) initState
  · simp

/-- C4, amended (a trailing ordinary middleware does not stay in the list,
see the counterexample): for every `path` call with at least one trailing
function argument, the last function — whether a callback or an ordinary
middleware — is popped off the middleware list and invoked as the scoped
callback, and the new node's middleware list consists of the remaining
functions only. -/
theorem c4_amended_theorem :
    ∀ (s : BuilderState) (uri : Option String) (fns : List Fn) (f : Fn),
      runCmd (.path uri (fns ++ [f])) s =
        runEndGroup (invokeFn f (pathEnter s uri fns)) ∧
      (pathEnter s uri fns).cur.middlewares = fns := by
  intro s uri fns f
  exact ⟨runCmd_path_concat uri fns f s, by rw [pathEnter, createPathElement]; simp⟩

/-- C5, confirmed.  On a builder whose tree has been fully drained (every
verb array of every node and frame is empty — the state a completed first
`build` leaves, since `drain` pops every operation), running the build loop
again issues no registrations and returns the router unchanged: the reused
supplied router (`regs = router contents`) or a fresh empty one
(`regs = []`) when none was supplied.  The model is total, so the call
cannot throw. -/
theorem c5_second_build :
    ∀ (router : Option (List Reg)) (cur : Node) (stack : List BFrame),
      NoOpsState ⟨cur, stack, router.getD []⟩ = true →
      loop ⟨cur, stack, router.getD []⟩ = router.getD [] :=
  fun router cur stack h =>
    loop_noOps (mu ⟨cur, stack, router.getD []⟩) _ le_rfl h

theorem c5_witness :
    NoOpsState ⟨drainedNode "/a" [], [⟨"", [], emptyOps, [], true, false⟩],
        (some [⟨Verb.get, "/h", []⟩] : Option (List Reg)).getD []⟩ = true ∧
    loop ⟨drainedNode "/a" [], [⟨"", [], emptyOps, [], true, false⟩],
        (some [⟨Verb.get, "/h", []⟩] : Option (List Reg)).getD []⟩ =
      [⟨Verb.get, "/h", []⟩] := by
  have h : NoOpsState ⟨drainedNode "/a" [], [⟨"", [], emptyOps, [], true, false⟩],
      (some [⟨Verb.get, "/h", []⟩] : Option (List Reg)).getD []⟩ = true := by
    simp [NoOpsState, noOpsN, noOpsL, noOpsF, emptyOpsOf, emptyOps, methods, drainedNode]
  exact ⟨h, c5_second_build (some [⟨Verb.get, "/h", []⟩]) _ _ h⟩

/-- C6, confirmed.  Flattening drains by popping: the registrations for any
(unvisited) tree are its own operations with each verb array reversed
(last-declared-first), followed by the children in reversed (last-declared-
first) order; and declaring the same verb twice at one node yields exactly
two registrations, both present, the later declaration first. -/
theorem c6_pop_order :
    (∀ (n : Node), allUnvN n = true →
      buildRegs ⟨n, []⟩ =
        (methods.flatMap fun v => ((n.ops v).reverse).map fun op =>
          ⟨v, "" ++ n.uri ++ op.uri, n.middlewares ++ op.middlewares⟩) ++
        flattenChildren ("" ++ n.uri) n.middlewares n.children.reverse) ∧
    (∀ (v : Verb) (u : String) (m : List Fn) (o1 o2 : Op),
      buildRegs ⟨.mk u m (pushVerbOp (pushVerbOp emptyOps v o1) v o2) [] false, []⟩ =
        [⟨v, "" ++ u ++ o2.uri, m ++ o2.middlewares⟩,
         ⟨v, "" ++ u ++ o1.uri, m ++ o1.middlewares⟩]) := by
  have hmain : ∀ (n : Node), allUnvN n = true →
      buildRegs ⟨n, []⟩ =
        (methods.flatMap fun v => ((n.ops v).reverse).map fun op =>
          ⟨v, "" ++ n.uri ++ op.uri, n.middlewares ++ op.middlewares⟩) ++
        flattenChildren ("" ++ n.uri) n.middlewares n.children.reverse := by
    intro n hn
    have hWF : WFb ⟨n, []⟩ = true := by
      rw [WFb]
      simp [hn]
    rw [buildRegs, build_master hWF none]
    simp only [Option.getD_none, List.nil_append]
    rw [show initFrames ([] : List CFrame) = [] from rfl, sweepF_nil, List.append_nil]
    rw [flattenNode_def, drainSpec]
    rfl
  constructor
  · exact hmain
  · intro v u m o1 o2
    have hn : allUnvN (Node.mk u m (pushVerbOp (pushVerbOp emptyOps v o1) v o2)
        [] false) = true := by
      rw [allUnvN, allUnvL]
      rfl
    rw [hmain _ hn]
    simp only [Node.children_mk, List.reverse_nil, flattenChildren_nil, List.append_nil,
      Node.ops_mk, Node.uri_mk, Node.middlewares_mk]
    rw [flatMap_methods_single v _ (fun w hw => ?_)]
    · rw [pushVerbOp]
      simp only [if_pos rfl]
      rw [pushVerbOp]
      simp only [if_pos rfl]
      rw [show emptyOps v = [] from rfl]
      simp
    · rw [pushVerbOp]
      simp only [hw, if_false]
      rw [pushVerbOp]
      simp only [hw, if_false]
      rw [show emptyOps w = [] from rfl]
      rfl

theorem c6_witness :
    allUnvN (Node.mk "" []
        (pushVerbOp (pushVerbOp emptyOps .get ⟨"/a", [.mw 1]⟩) .get ⟨"/b", [.mw 2]⟩)
        [] false) = true ∧
    buildRegs ⟨Node.mk "" []
        (pushVerbOp (pushVerbOp emptyOps .get ⟨"/a", [.mw 1]⟩) .get ⟨"/b", [.mw 2]⟩)
        [] false, []⟩ =
      [⟨Verb.get, "" ++ "" ++ "/b", [] ++ [Fn.mw 2]⟩,
       ⟨Verb.get, "" ++ "" ++ "/a", [] ++ [Fn.mw 1]⟩] := by
  have hn : allUnvN (Node.mk "" []
      (pushVerbOp (pushVerbOp emptyOps .get ⟨"/a", [.mw 1]⟩) .get ⟨"/b", [.mw 2]⟩)
      [] false) = true := by
    rw [allUnvN, allUnvL]
    rfl
  exact ⟨hn, c6_pop_order.2 Verb.get "" [] ⟨"/a", [.mw 1]⟩ ⟨"/b", [.mw 2]⟩⟩

/-- C7, amended (the grouping operation `path` performs no receiver check,
see the counterexample): every HTTP verb method invoked without its owning
builder instance as receiver fails immediately with the explicit guard
error of lines 77-78. -/
theorem c7_amended_theorem :
    ∀ (v : Verb) (uri : Option String) (fns : List Fn) (g : GState),
      runCmdG (.verb v uri fns) g = .error "don't destructure the builder" := by
  intro v uri fns g
  rw [runCmdG]

/-- C7, counterexample.  A destructured `path('/a')` call does not fail: the
method has no receiver guard (lines 132-152), and in the non-strict `.cjs`
module `this` falls back to the global object, so the call silently creates
builder state on `globalThis` and completes normally. -/
theorem c7_counterexample :
    runCmdG (.path (some "/a") []) none =
      .ok (some ⟨createPathElement "/a" [], []⟩) ∧
    (Except.ok (some ⟨createPathElement "/a" [], []⟩) : Except String GState) ≠
      .error "don't destructure the builder" := by
  constructor
  · rw [runCmdG_path_eq]
    rfl
  · simp

/-- C8, confirmed.  A verb method whose first argument is a function records
an operation with the empty uri fragment whose middleware list starts with
that function (lines 80-83), appending it to the current node's verb array;
the call is total — omitting the path fragment is never an error. -/
theorem c8_function_first :
    ∀ (v : Verb) (f : Fn) (fns : List Fn) (s : BuilderState),
      runCmd (.verb v none (f :: fns)) s =
        ⟨.mk s.cur.uri s.cur.middlewares
          (pushVerbOp s.cur.ops v ⟨"", f :: fns⟩) s.cur.children s.cur.visited,
         s.stack⟩ ∧
      pushVerbOp s.cur.ops v ⟨"", f :: fns⟩ v = s.cur.ops v ++ [⟨"", f :: fns⟩] := by
  intro v f fns s
  refine ⟨runCmd_verb v none (f :: fns) s, ?_⟩
  rw [pushVerbOp]
  simp

def cexProgC9 : List Cmd :=
  [.path none [.mw 0, .cb [.path (some "/c") [.mw 1, .cb []]]]]

theorem cexProgC9_eval : runProg cexProgC9 initState =
    ⟨.mk "" [] emptyOps
        [.mk "" [.mw 0] emptyOps
            [.mk "/c" [.mw 1] emptyOps [] false] false] false, []⟩ := by
  rw [runProg_eval]
  rfl

/-- C9, counterexample.  In the tree built by `path(mw0, g => g.path('/c',
mw1, _ => {}))` the node `/c` stores `[mw 1]` at creation time, but after
two iterations of the build loop the descent assignment of line 189 has
reassigned its `middlewares` field to `[mw 0, mw 1]` — a node's stored list
is changed during flattening. -/
theorem c9_counterexample :
    (runProg cexProgC9 initState).cur.children.map
        (fun a => a.children.map Node.middlewares) = [[[Fn.mw 1]]] ∧
    (stepN 2 (buildInit (runProg cexProgC9 initState) [])).map
        (fun s2 => s2.cur.middlewares) = some [Fn.mw 0, Fn.mw 1] ∧
    [Fn.mw 0, Fn.mw 1] ≠ [Fn.mw 1] := by
  refine ⟨?_, ?_, ?_⟩
  · rw [cexProgC9_eval]
    rfl
  · rw [cexProgC9_eval]
    rfl
  · simp

/-- C9, amended (during flattening the descent does reassign the child's
stored list, see the counterexample): throughout the construction phase a
node's middleware list is fixed at creation time — after any sequence of
builder calls the stored lists are exactly the previous ones plus the
creation-time list of each node the calls created — while during flattening
the descent step reassigns the child's `middlewares` field to the parent's
list concatenated with the child's own (line 189); the parent's stored list
itself is not modified. -/
theorem c9_amended_theorem :
    (∀ (P : List Cmd) (s : BuilderState),
      mwFieldsS (runProg P s) = mwFieldsS s + ↑(createdProg P)) ∧
    (∀ (u : String) (m : List Fn) (o : Verb → List Op) (cs : List Node) (c : Node)
        (stack : List BFrame) (regs : List Reg),
      step ⟨.mk u m o (cs ++ [c]) false, stack, regs⟩ =
        some ⟨c.withMws (m ++ c.middlewares),
          ⟨u, m, emptyOps, cs, false, false⟩ :: stack,
          regs ++ drainSpec (ancUri stack) (.mk u m o (cs ++ [c]) false)⟩) := by
  constructor
  · exact fun P s => ((mwFields_aux (sizeOf P)).2).2 P le_rfl s
  · intro u m o cs c stack regs
    rw [step_unvisited, @processAt_concat _ cs c stack regs (by simp)]
    simp only [Node.uri_mk, Node.middlewares_mk, Node.visited_mk]

/-- C10, confirmed.  From every builder state reachable by any finite
sequence of builder calls — wherever the cursor rests — the build loop
reaches the state with no current element (the loop exit, line 179) after
finitely many iterations. -/
theorem c10_build_terminates (P : List Cmd) :
    ∃ n, stepN n (buildInit (runProg P initState) []) = none :=
  stepN_halts (mu (buildInit (runProg P initState) [])) _ le_rfl
